import Mathlib

/-!
Verification of the Enola neutral-atom compiler against its natural-language
specification.  Each section embeds one module of the source tree
(`enola/router/router_mis.py`, `enola/router/codegen.py`,
`enola/scheduler/gate_scheduler.py`, `enola/placer/placer.py`,
`enola/placer/placer_parital_mapping.py`) as executable Lean definitions, and
the theorems at the end settle the specification claims about them.
-/

namespace Enola

/-! ## Physical constants (codegen.py lines 9-30) -/

/-- Minimum AOD separation in um (codegen.py line 10, `AOD_SEP = 2`). -/
def AOD_SEP : Int := 2

/-! ## Router: motion compatibility (router_mis.py lines 7-36)

A motion vector is the 4-tuple built at router_mis.py lines 150-151/159-160:
`(q0_col, q1_col, q0_row, q1_row)` - start and end column coordinate, then
start and end row coordinate, of the carried atom.  (The comment in the
source labels the components `(start_row, end_row, start_col, end_col)`; the
treatment of the two coordinate pairs is symmetric either way.) -/

structure Vec4 where
  v0 : Int
  v1 : Int
  v2 : Int
  v3 : Int
deriving DecidableEq, Repr

/-- Default vector used for (unreachable) out-of-range list accesses. -/
def vec0 : Vec4 := ⟨0, 0, 0, 0⟩

/-- `compatible_2D` (router_mis.py lines 7-36): two motions can be performed
simultaneously by the rigid AOD lattice.  Each early `return False` of the
source is one `if` branch, in the source's order. -/
def compatible_2D (a b : Vec4) : Bool :=
  if a.v0 = b.v0 ∧ a.v1 ≠ b.v1 then false
  else if a.v1 = b.v1 ∧ a.v0 ≠ b.v0 then false
  else if a.v0 < b.v0 ∧ a.v1 ≥ b.v1 then false
  else if a.v0 > b.v0 ∧ a.v1 ≤ b.v1 then false
  else if a.v2 = b.v2 ∧ a.v3 ≠ b.v3 then false
  else if a.v3 = b.v3 ∧ a.v2 ≠ b.v2 then false
  else if a.v2 < b.v2 ∧ a.v3 ≥ b.v3 then false
  else if a.v2 > b.v2 ∧ a.v3 ≤ b.v3 then false
  else true

/-- Unfolding of `compatible_2D` into a plain proposition. -/
theorem compatible_2D_eq_true_iff (a0 a1 a2 a3 b0 b1 b2 b3 : Int) :
    compatible_2D ⟨a0, a1, a2, a3⟩ ⟨b0, b1, b2, b3⟩ = true ↔
      (¬(a0 = b0 ∧ a1 ≠ b1) ∧ ¬(a1 = b1 ∧ a0 ≠ b0) ∧
       ¬(a0 < b0 ∧ a1 ≥ b1) ∧ ¬(a0 > b0 ∧ a1 ≤ b1) ∧
       ¬(a2 = b2 ∧ a3 ≠ b3) ∧ ¬(a3 = b3 ∧ a2 ≠ b2) ∧
       ¬(a2 < b2 ∧ a3 ≥ b3) ∧ ¬(a2 > b2 ∧ a3 ≤ b3)) := by
  unfold compatible_2D
  split_ifs with h1 h2 h3 h4 h5 h6 h7 h8 <;>
    simp_all

/-- `compatible_2D` is symmetric. -/
theorem compatible_2D_comm (a b : Vec4) :
    compatible_2D a b = compatible_2D b a := by
  obtain ⟨a0, a1, a2, a3⟩ := a
  obtain ⟨b0, b1, b2, b3⟩ := b
  have h : compatible_2D ⟨a0, a1, a2, a3⟩ ⟨b0, b1, b2, b3⟩ = true ↔
      compatible_2D ⟨b0, b1, b2, b3⟩ ⟨a0, a1, a2, a3⟩ = true := by
    rw [compatible_2D_eq_true_iff, compatible_2D_eq_true_iff]
    constructor <;>
      · rintro ⟨h1, h2, h3, h4, h5, h6, h7, h8⟩
        refine ⟨?_, ?_, ?_, ?_, ?_, ?_, ?_, ?_⟩ <;> omega
  rcases hc : compatible_2D ⟨a0, a1, a2, a3⟩ ⟨b0, b1, b2, b3⟩ <;>
    rcases hd : compatible_2D ⟨b0, b1, b2, b3⟩ ⟨a0, a1, a2, a3⟩ <;> simp_all

/-- The two candidate motions of one gate - move q0 onto q1's site and move
q1 onto q0's site - are incompatible whenever the two sites differ. -/
theorem candidate_pair_incompatible (c0 c1 r0 r1 : Int)
    (h : ¬(c0 = c1 ∧ r0 = r1)) :
    compatible_2D ⟨c0, c1, r0, r1⟩ ⟨c1, c0, r1, r0⟩ = false := by
  rcases hc : compatible_2D ⟨c0, c1, r0, r1⟩ ⟨c1, c0, r1, r0⟩
  · rfl
  · exfalso
    rw [compatible_2D_eq_true_iff] at hc
    push_neg at h
    obtain ⟨h1, h2, h3, h4, h5, h6, h7, h8⟩ := hc
    omega

/-! ## Router: incompatibility edges (router_mis.py lines 163-167)

`violations` is built by testing every ordered pair `i < j` of candidate
vectors.  The source iterates `for i in range(len(vectors))`,
`for j in range(i+1, len(vectors))`; we obtain the inner range as the
filter of `range` keeping the indices above `i` (same list). -/

/-- Incompatibility edge list over a vector list (router_mis.py 163-167). -/
def violationsOf (vs : List Vec4) : List (Nat × Nat) :=
  (List.range vs.length).flatMap (fun i =>
    ((List.range vs.length).filter (fun j => i < j)).filterMap (fun j =>
      if compatible_2D (vs.getD i vec0) (vs.getD j vec0) then none
      else some (i, j)))

theorem mem_violationsOf {vs : List Vec4} {i j : Nat} :
    (i, j) ∈ violationsOf vs ↔
      i < j ∧ j < vs.length ∧
        compatible_2D (vs.getD i vec0) (vs.getD j vec0) = false := by
  simp only [violationsOf, List.mem_flatMap, List.mem_filterMap, List.mem_filter,
    List.mem_range, decide_eq_true_eq]
  constructor
  · rintro ⟨a, ha, b, ⟨hb, hab⟩, hif⟩
    split at hif
    · exact absurd hif (by simp)
    · rename_i hcomp
      rw [Option.some_inj, Prod.mk.injEq] at hif
      obtain ⟨rfl, rfl⟩ := hif
      exact ⟨hab, hb, by simpa [Bool.not_eq_true] using hcomp⟩
  · rintro ⟨hij, hj, hcomp⟩
    refine ⟨i, lt_trans hij hj, j, ⟨hj, hij⟩, ?_⟩
    rw [if_neg (by rw [hcomp]; simp)]

/-! ## Router: greedy maximal independent set (router_mis.py lines 47-62)

`maximalis_solve_sort` builds the neighbor lists of the conflict graph and
then greedily accepts each vertex in index order unless it has already been
marked conflicting, marking all neighbors of every accepted vertex.

The source accumulates the neighbor lists into a dict by one pass over the
edge list; `nodeNeighbors edges v` collects the same multiset of neighbors
(successors of `v` through first components, then through second).
The conflict flags, a Python list of `n` booleans, are modelled as a total
function `Nat -> Bool` (all edge endpoints are below `n` at every call
site, mem_violationsOf). -/

/-- Neighbor list of vertex `v` in the (undirected) edge list. -/
def nodeNeighbors (edges : List (Nat × Nat)) (v : Nat) : List Nat :=
  (edges.filterMap (fun e => if e.1 = v then some e.2 else none)) ++
    (edges.filterMap (fun e => if e.2 = v then some e.1 else none))

theorem mem_nodeNeighbors {edges : List (Nat × Nat)} {v j : Nat} :
    j ∈ nodeNeighbors edges v ↔ (v, j) ∈ edges ∨ (j, v) ∈ edges := by
  simp only [nodeNeighbors, List.mem_append, List.mem_filterMap]
  constructor
  · rintro (⟨⟨x, y⟩, he, hif⟩ | ⟨⟨x, y⟩, he, hif⟩)
    · by_cases hx : x = v
      · rw [if_pos (by simpa using hx), Option.some_inj] at hif
        subst hif; subst hx; exact Or.inl he
      · rw [if_neg (by simpa using hx)] at hif; exact absurd hif (by simp)
    · by_cases hy : y = v
      · rw [if_pos (by simpa using hy), Option.some_inj] at hif
        subst hif; subst hy; exact Or.inr he
      · rw [if_neg (by simpa using hy)] at hif; exact absurd hif (by simp)
  · rintro (h | h)
    · exact Or.inl ⟨(v, j), h, by simp⟩
    · exact Or.inr ⟨(j, v), h, by simp⟩

/-- One step of the greedy scan (body of the `for i in range(...)` loop at
router_mis.py lines 55-61): skip a flagged vertex, otherwise accept it and
flag all its neighbors. -/
def misGreedyStep (nbrs : Nat → List Nat) (st : (Nat → Bool) × List Nat)
    (i : Nat) : (Nat → Bool) × List Nat :=
  if st.1 i then st
  else (fun m => st.1 m || decide (m ∈ nbrs i), st.2 ++ [i])

/-- `maximalis_solve_sort` (router_mis.py lines 47-62). -/
def maximalis_solve_sort (n : Nat) (edges : List (Nat × Nat)) : List Nat :=
  ((List.range n).foldl (misGreedyStep (nodeNeighbors edges))
    (fun _ => false, [])).2

/-- Invariant of the greedy scan: every neighbor of an accepted vertex is
flagged, and no two accepted vertices are neighbors. -/
def misInv (nbrs : Nat → List Nat) (st : (Nat → Bool) × List Nat) : Prop :=
  (∀ k ∈ st.2, ∀ m ∈ nbrs k, st.1 m = true) ∧
    (∀ k ∈ st.2, ∀ m ∈ nbrs k, m ∉ st.2)

theorem misGreedy_fold_inv (nbrs : Nat → List Nat)
    (hsym : ∀ a b, a ∈ nbrs b → b ∈ nbrs a)
    (hirr : ∀ a, a ∉ nbrs a) :
    ∀ (is : List Nat) (st : (Nat → Bool) × List Nat), misInv nbrs st →
      misInv nbrs (is.foldl (misGreedyStep nbrs) st) := by
  intro is
  induction is with
  | nil => intro st h; exact h
  | cons i rest ih =>
    intro st h
    simp only [List.foldl_cons]
    apply ih
    unfold misGreedyStep
    split
    · exact h
    · rename_i hflag
      obtain ⟨h1, h2⟩ := h
      constructor
      · intro k hk m hm
        simp only [List.mem_append, List.mem_singleton] at hk
        rcases hk with hk | rfl
        · simp [h1 k hk m hm]
        · simp [hm]
      · intro k hk m hm hmem
        simp only [List.mem_append, List.mem_singleton] at hk hmem
        rcases hk with hk | rfl
        · rcases hmem with hmem | rfl
          · exact h2 k hk m hm hmem
          · exact hflag (h1 k hk m hm)
        · rcases hmem with hmem | rfl
          · exact hflag (h1 m hmem _ (hsym m _ hm))
          · exact hirr _ hm

/-- Members of the greedy accumulator persist through the fold. -/
theorem misGreedy_fold_acc_subset (nbrs : Nat → List Nat) :
    ∀ (is : List Nat) (st : (Nat → Bool) × List Nat) (a : Nat),
      a ∈ st.2 → a ∈ (is.foldl (misGreedyStep nbrs) st).2 := by
  intro is
  induction is with
  | nil => intro st a h; exact h
  | cons i rest ih =>
    intro st a h
    simp only [List.foldl_cons]
    apply ih
    unfold misGreedyStep
    split
    · exact h
    · simp [h]

/-- Every vertex accepted by the greedy fold came from the accumulator or
from the scanned index list. -/
theorem misGreedy_fold_mem (nbrs : Nat → List Nat) :
    ∀ (is : List Nat) (st : (Nat → Bool) × List Nat) (a : Nat),
      a ∈ (is.foldl (misGreedyStep nbrs) st).2 → a ∈ st.2 ∨ a ∈ is := by
  intro is
  induction is with
  | nil => intro st a h; exact Or.inl h
  | cons i rest ih =>
    intro st a h
    rcases ih _ a h with hmem | hmem
    · unfold misGreedyStep at hmem
      split at hmem
      · exact Or.inl hmem
      · simp only [List.mem_append, List.mem_singleton] at hmem
        rcases hmem with hmem | rfl
        · exact Or.inl hmem
        · simp
    · simp [hmem]

/-- The greedy accumulator stays sorted: it is extended only by indices
strictly above everything already accepted. -/
theorem misGreedy_fold_sorted (nbrs : Nat → List Nat) :
    ∀ (is : List Nat) (st : (Nat → Bool) × List Nat),
      is.Pairwise (· < ·) → st.2.Pairwise (· < ·) →
      (∀ a ∈ st.2, ∀ i ∈ is, a < i) →
      (is.foldl (misGreedyStep nbrs) st).2.Pairwise (· < ·) := by
  intro is
  induction is with
  | nil => intro st _ h _; exact h
  | cons v rest ih =>
    intro st his hacc hcross
    simp only [List.pairwise_cons] at his
    simp only [List.foldl_cons]
    refine ih _ his.2 ?_ ?_
    · unfold misGreedyStep
      split
      · exact hacc
      · simp only [List.pairwise_append, List.pairwise_cons]
        refine ⟨hacc, by simp, ?_⟩
        intro a ha b hb
        simp only [List.mem_singleton] at hb
        exact hcross a ha b (by simp [hb])
    · intro a ha w hw
      unfold misGreedyStep at ha
      split at ha
      · exact hcross a ha w (by simp [hw])
      · simp only [List.mem_append, List.mem_singleton] at ha
        rcases ha with ha | rfl
        · exact hcross a ha w (by simp [hw])
        · exact his.1 w hw

/-- When the scan is nonempty and starts from the initial state, the very
first vertex is always accepted. -/
theorem misGreedy_zero_mem (nbrs : Nat → List Nat) (n : Nat) (hn : 0 < n) :
    0 ∈ ((List.range n).foldl (misGreedyStep nbrs) (fun _ => false, [])).2 := by
  obtain ⟨m, rfl⟩ : ∃ m, n = m + 1 := ⟨n - 1, by omega⟩
  rw [List.range_succ_eq_map]
  simp only [List.foldl_cons]
  apply misGreedy_fold_acc_subset
  unfold misGreedyStep
  simp

/-- The result of `maximalis_solve_sort` is an independent set of the edge
list: no edge joins two returned vertices. -/
theorem maximalis_solve_sort_independent (n : Nat) (edges : List (Nat × Nat))
    (hirr : ∀ i, (i, i) ∉ edges) :
    ∀ i j, (i, j) ∈ edges →
      ¬(i ∈ maximalis_solve_sort n edges ∧ j ∈ maximalis_solve_sort n edges) := by
  intro i j hedge ⟨hi, hj⟩
  have hsym : ∀ a b, a ∈ nodeNeighbors edges b → b ∈ nodeNeighbors edges a := by
    intro a b h
    rw [mem_nodeNeighbors] at h ⊢
    tauto
  have hirr' : ∀ a, a ∉ nodeNeighbors edges a := by
    intro a h
    rw [mem_nodeNeighbors] at h
    rcases h with h | h <;> exact hirr a h
  have hinv := misGreedy_fold_inv (nodeNeighbors edges) hsym hirr'
    (List.range n) (fun _ => false, []) ⟨by simp, by simp⟩
  exact hinv.2 i hi j (mem_nodeNeighbors.mpr (Or.inl hedge)) hj

/-- Returned vertices are within the scanned range. -/
theorem maximalis_solve_sort_lt (n : Nat) (edges : List (Nat × Nat)) :
    ∀ a ∈ maximalis_solve_sort n edges, a < n := by
  intro a ha
  rcases misGreedy_fold_mem (nodeNeighbors edges) (List.range n) _ a ha with h | h
  · simp at h
  · exact List.mem_range.mp h

/-- The returned vertex list is strictly increasing. -/
theorem maximalis_solve_sort_sorted (n : Nat) (edges : List (Nat × Nat)) :
    (maximalis_solve_sort n edges).Pairwise (· < ·) := by
  apply misGreedy_fold_sorted (nodeNeighbors edges) (List.range n) _
    (List.pairwise_lt_range n) (by simp)
  simp

/-- Vertex `0` is always selected when the graph is nonempty. -/
theorem maximalis_solve_sort_zero_mem (n : Nat) (edges : List (Nat × Nat))
    (hn : 0 < n) : 0 ∈ maximalis_solve_sort n edges :=
  misGreedy_zero_mem (nodeNeighbors edges) n hn

/-! ## Router: per-layer loop of route_qubit_mis (router_mis.py lines 139-246)

A gate is an (ordered) pair of qubit indices; the qubit mapping is the list
of grid coordinates indexed by qubit (entries of `qubit_mapping`).  For each
remaining gate the loop builds the two candidate motion vectors (lines
146-161), the incompatibility edges (163-167), runs the default strategy
`maximalis_solve_sort` (line 176), records the executed gates (line 194),
moves each selected mover onto its partner's site (lines 214-216), and drops
the satisfied gates from the remaining graph (lines 239-241). -/

/-- The two candidate motion vectors of one gate (router_mis.py 148-151 and
157-160).  The source unpacks `(q_row, q_col) = qubit_mapping[q]` and stores
`(q0_col, q1_col, q0_row, q1_row)` then `(q1_col, q0_col, q1_row, q0_row)`. -/
def mkVecPair (m : List (Int × Int)) (e : Nat × Nat) : List Vec4 :=
  let p0 := m.getD e.1 (0, 0)
  let p1 := m.getD e.2 (0, 0)
  [⟨p0.2, p1.2, p0.1, p1.1⟩, ⟨p1.2, p0.2, p1.1, p0.1⟩]

/-- Candidate motion list for the remaining gates (router_mis.py 154-161;
with the window the same pairs are built for a prefix of the list). -/
def vectorsOf (m : List (Int × Int)) (remain : List (Nat × Nat)) : List Vec4 :=
  remain.flatMap (mkVecPair m)

theorem vectorsOf_length (m : List (Int × Int)) (remain : List (Nat × Nat)) :
    (vectorsOf m remain).length = 2 * remain.length := by
  induction remain with
  | nil => rfl
  | cons g gs ih =>
    simp only [vectorsOf, List.flatMap_cons] at ih ⊢
    simp [mkVecPair, ih]
    omega

theorem vectorsOf_getD_even (m : List (Int × Int)) :
    ∀ (remain : List (Nat × Nat)) (k : Nat), k < remain.length →
      (vectorsOf m remain).getD (2 * k) vec0 =
        (mkVecPair m (remain.getD k (0, 0))).getD 0 vec0 := by
  intro remain
  induction remain with
  | nil => intro k hk; simp at hk
  | cons g gs ih =>
    intro k hk
    cases k with
    | zero => simp [vectorsOf, mkVecPair]
    | succ k =>
      have h2 : 2 * (k + 1) = (2 * k) + 1 + 1 := by omega
      simp only [vectorsOf, List.flatMap_cons, mkVecPair] at ih ⊢
      simp only [h2, List.cons_append, List.nil_append, List.getD_cons_succ]
      exact ih k (by simpa using hk)

theorem vectorsOf_getD_odd (m : List (Int × Int)) :
    ∀ (remain : List (Nat × Nat)) (k : Nat), k < remain.length →
      (vectorsOf m remain).getD (2 * k + 1) vec0 =
        (mkVecPair m (remain.getD k (0, 0))).getD 1 vec0 := by
  intro remain
  induction remain with
  | nil => intro k hk; simp at hk
  | cons g gs ih =>
    intro k hk
    cases k with
    | zero => simp [vectorsOf, mkVecPair]
    | succ k =>
      have h2 : 2 * (k + 1) + 1 = (2 * k + 1) + 1 + 1 := by omega
      simp only [vectorsOf, List.flatMap_cons, mkVecPair] at ih ⊢
      simp only [h2, List.cons_append, List.nil_append, List.getD_cons_succ]
      exact ih k (by simpa using hk)

/-- Window cap on the candidate list (router_mis.py line 101,
`vector_threshold = 1000`). -/
def vectorThreshold : Nat := 1000

/-- The gates whose candidate vectors are built in this iteration.  With
`use_window` the source fills `min(vector_threshold, 2*len(remain_graph))`
vector slots two at a time (lines 141-151), i.e. exactly the first
`vectorThreshold / 2` remaining gates; without the window, all of them. -/
def selectSrc (useWindow : Bool) (remain : List (Nat × Nat)) :
    List (Nat × Nat) :=
  if useWindow then remain.take (vectorThreshold / 2) else remain

/-- Mover/partner pairs of the selected vectors (router_mis.py 183-191): an
even vector index `i` moves `remain[i/2][0]` onto `remain[i/2][1]`, an odd
one the converse. -/
def moverTargets (remain : List (Nat × Nat)) (ex : List Nat) :
    List (Nat × Nat) :=
  ex.map (fun v =>
    let e := remain.getD (v / 2) (0, 0)
    if v % 2 = 0 then (e.1, e.2) else (e.2, e.1))

/-- Mapping update (router_mis.py 214-216): for each qubit `i` in index
order, if `i` is a mover, `qubit_mapping[i] = qubit_mapping[target[i]]`. -/
def applyMoves (mt : List (Nat × Nat)) (m : List (Int × Int)) :
    List (Int × Int) :=
  (List.range m.length).foldl (fun mm i =>
    match mt.lookup i with
    | some t => mm.set i (mm.getD t (0, 0))
    | none => mm) m

/-- Partition of the remaining gates into the executed ones (index `g` with
`2g` or `2g+1` selected) and the kept ones (router_mis.py 239-241 keeps
exactly the complement). -/
def splitByEx (ex : List Nat) :
    List (Nat × Nat) → Nat → List (Nat × Nat) × List (Nat × Nat)
  | [], _ => ([], [])
  | g :: gs, i =>
    let r := splitByEx ex gs (i + 1)
    if 2 * i ∈ ex ∨ 2 * i + 1 ∈ ex then (g :: r.1, r.2) else (r.1, g :: r.2)

/-- The selected vector indices of one loop iteration: the default-strategy
solver applied to the candidate vectors of the (possibly windowed) remaining
gates and their incompatibility edges (router_mis.py lines 139-176). -/
def iterEx (useWindow : Bool) (m : List (Int × Int))
    (remain : List (Nat × Nat)) : List Nat :=
  maximalis_solve_sort (vectorsOf m (selectSrc useWindow remain)).length
    (violationsOf (vectorsOf m (selectSrc useWindow remain)))

/-- One run of the while loop of `route_qubit_mis` (router_mis.py 139-245)
under the default `maximalis_sorted` strategy, returning the accumulated
executed-gate list (`gates_dict` keeps one record per executed gate, in
execution order; we record the gate pair, which the source wraps together
with its index in the layer's gate list), the final qubit mapping, and the
number of loop iterations (one routing sub-layer is appended per
iteration).  The source loop runs `while remain_graph:`; every iteration
removes at least one gate, so `fuel = remain.length` suffices
(`routeLoop_gates_perm` proves the fuel is never exhausted). -/
def routeLoopAux (useWindow : Bool) :
    Nat → List (Int × Int) → List (Nat × Nat) →
      List (Nat × Nat) × List (Int × Int) × Nat
  | 0, m, _ => ([], m, 0)
  | _, m, [] => ([], m, 0)
  | fuel + 1, m, g :: gs =>
    let remain := g :: gs
    let ex := iterEx useWindow m remain
    let executed := ex.map (fun v => remain.getD (v / 2) (0, 0))
    let m2 := applyMoves (moverTargets remain ex) m
    let rest := (splitByEx ex remain 0).2
    let r := routeLoopAux useWindow fuel m2 rest
    (executed ++ r.1, r.2.1, r.2.2 + 1)

theorem routeLoopAux_succ_cons (useWindow : Bool) (fuel : Nat)
    (m : List (Int × Int)) (g : Nat × Nat) (gs : List (Nat × Nat)) :
    routeLoopAux useWindow (fuel + 1) m (g :: gs) =
      ((iterEx useWindow m (g :: gs)).map
          (fun v => (g :: gs).getD (v / 2) (0, 0)) ++
        (routeLoopAux useWindow fuel
          (applyMoves (moverTargets (g :: gs) (iterEx useWindow m (g :: gs))) m)
          ((splitByEx (iterEx useWindow m (g :: gs)) (g :: gs) 0).2)).1,
       (routeLoopAux useWindow fuel
          (applyMoves (moverTargets (g :: gs) (iterEx useWindow m (g :: gs))) m)
          ((splitByEx (iterEx useWindow m (g :: gs)) (g :: gs) 0).2)).2.1,
       (routeLoopAux useWindow fuel
          (applyMoves (moverTargets (g :: gs) (iterEx useWindow m (g :: gs))) m)
          ((splitByEx (iterEx useWindow m (g :: gs)) (g :: gs) 0).2)).2.2 + 1) :=
  rfl

theorem splitByEx_nil_ex : ∀ (l : List (Nat × Nat)) (i : Nat),
    splitByEx [] l i = ([], l) := by
  intro l
  induction l with
  | nil => intro i; rfl
  | cons g gs ih =>
    intro i
    simp [splitByEx, ih]

theorem splitByEx_head_lt : ∀ (l : List (Nat × Nat)) (i : Nat) (e : Nat)
    (ex : List Nat), e < 2 * i →
    splitByEx (e :: ex) l i = splitByEx ex l i := by
  intro l
  induction l with
  | nil => intro i e ex _; rfl
  | cons g gs ih =>
    intro i e ex he
    simp only [splitByEx]
    rw [ih (i + 1) e ex (by omega)]
    have h1 : (2 * i ∈ e :: ex ∨ 2 * i + 1 ∈ ex ∨ 2 * i + 1 = e) ↔
        (2 * i ∈ ex ∨ 2 * i + 1 ∈ ex) := by
      simp only [List.mem_cons]
      constructor
      · rintro ((h | h) | h | h) <;> first | omega | tauto
      · tauto
    by_cases hc : 2 * i ∈ ex ∨ 2 * i + 1 ∈ ex
    · rw [if_pos (by simp only [List.mem_cons]; tauto),
        if_pos hc]
    · rw [if_neg ?_, if_neg hc]
      simp only [List.mem_cons]
      push_neg
      push_neg at hc
      exact ⟨⟨by omega, hc.1⟩, by omega, hc.2⟩

theorem splitByEx_append_perm : ∀ (l : List (Nat × Nat)) (i : Nat)
    (ex : List Nat),
    ((splitByEx ex l i).1 ++ (splitByEx ex l i).2).Perm l := by
  intro l
  induction l with
  | nil => intro i ex; simp [splitByEx]
  | cons g gs ih =>
    intro i ex
    simp only [splitByEx]
    split
    · simpa using (ih (i + 1) ex).cons g
    · exact (List.perm_middle).trans ((ih (i + 1) ex).cons g)

theorem splitByEx_fst_sublist : ∀ (l : List (Nat × Nat)) (i : Nat)
    (ex : List Nat), (splitByEx ex l i).1.Sublist l := by
  intro l
  induction l with
  | nil => intro i ex; simp [splitByEx]
  | cons g gs ih =>
    intro i ex
    simp only [splitByEx]
    split
    · exact (ih (i + 1) ex).cons₂ g
    · exact (ih (i + 1) ex).cons g

theorem splitByEx_snd_sublist : ∀ (l : List (Nat × Nat)) (i : Nat)
    (ex : List Nat), (splitByEx ex l i).2.Sublist l := by
  intro l
  induction l with
  | nil => intro i ex; simp [splitByEx]
  | cons g gs ih =>
    intro i ex
    simp only [splitByEx]
    split
    · exact (ih (i + 1) ex).cons g
    · exact (ih (i + 1) ex).cons₂ g

/-- Any executed gate and any kept gate sit at distinct positions of the
remaining-gate list, so a pairwise relation on that list relates them
(in one order or the other). -/
theorem splitByEx_cross {R : (Nat × Nat) → (Nat × Nat) → Prop} :
    ∀ (l : List (Nat × Nat)) (i : Nat) (ex : List Nat), l.Pairwise R →
      ∀ a ∈ (splitByEx ex l i).1, ∀ b ∈ (splitByEx ex l i).2,
        R a b ∨ R b a := by
  intro l
  induction l with
  | nil => intro i ex _ a ha; simp [splitByEx] at ha
  | cons g gs ih =>
    intro i ex hpw a ha b hb
    simp only [List.pairwise_cons] at hpw
    simp only [splitByEx] at ha hb
    by_cases hc : 2 * i ∈ ex ∨ 2 * i + 1 ∈ ex
    · rw [if_pos hc] at ha hb
      simp only at ha hb
      rcases List.mem_cons.mp ha with rfl | ha
      · exact Or.inl (hpw.1 b ((splitByEx_snd_sublist gs (i+1) ex).mem hb))
      · exact ih (i + 1) ex hpw.2 a ha b hb
    · rw [if_neg hc] at ha hb
      simp only at ha hb
      rcases List.mem_cons.mp hb with rfl | hb
      · exact Or.inr (hpw.1 a ((splitByEx_fst_sublist gs (i+1) ex).mem ha))
      · exact ih (i + 1) ex hpw.2 a ha b hb

/-- The executed-gate list built by the source as
`[remain_graph[v // 2] for v in execute_gates]` is exactly the first
component of `splitByEx`, provided the selected vector indices are strictly
increasing, in range, and never contain both candidates of one gate. -/
theorem splitByEx_exec_eq : ∀ (remain : List (Nat × Nat)) (i : Nat)
    (ex : List Nat),
    ex.Pairwise (· < ·) →
    (∀ v ∈ ex, 2 * i ≤ v ∧ v < 2 * i + 2 * remain.length) →
    (∀ k, ¬(2 * k ∈ ex ∧ 2 * k + 1 ∈ ex)) →
    ex.map (fun v => remain.getD (v / 2 - i) (0, 0)) =
      (splitByEx ex remain i).1 := by
  intro remain
  induction remain with
  | nil =>
    intro i ex _ hbd _
    cases ex with
    | nil => rfl
    | cons e ex2 =>
      have := hbd e (by simp)
      simp only [List.length_nil] at this
      omega
  | cons g gs ih =>
    intro i ex hsort hbd hboth
    cases ex with
    | nil => rw [splitByEx_nil_ex]; rfl
    | cons e ex2 =>
      simp only [List.pairwise_cons] at hsort
      have hbe := hbd e (by simp)
      have hbd2 : ∀ v ∈ ex2, 2 * i ≤ v ∧ v < 2 * i + 2 * (g :: gs).length :=
        fun v hv => hbd v (by simp [hv])
      by_cases hcase : e = 2 * i ∨ e = 2 * i + 1
      · -- the head gate is executed
        have hrest : ∀ v ∈ ex2, 2 * (i + 1) ≤ v := by
          intro v hv
          have hev := hsort.1 v hv
          rcases hcase with rfl | rfl
          · by_cases hvp : v = 2 * i + 1
            · exact absurd ⟨by simp, by simp [hvp ▸ hv]⟩ (hboth i)
            · omega
          · omega
        have hmem : 2 * i ∈ e :: ex2 ∨ 2 * i + 1 ∈ e :: ex2 := by
          rcases hcase with rfl | rfl
          · exact Or.inl (by simp)
          · exact Or.inr (by simp)
        have hhead : (splitByEx (e :: ex2) (g :: gs) i) =
            (g :: (splitByEx ex2 gs (i + 1)).1, (splitByEx ex2 gs (i + 1)).2) := by
          simp only [splitByEx]
          rw [if_pos hmem, splitByEx_head_lt gs (i + 1) e ex2 (by omega)]
        rw [hhead]
        simp only [List.map_cons]
        have hfe : (g :: gs).getD (e / 2 - i) (0, 0) = g := by
          have h0 : e / 2 - i = 0 := by omega
          simp [h0]
        rw [hfe]
        congr 1
        rw [List.map_congr_left (g := fun v =>
              gs.getD (v / 2 - (i + 1)) (0, 0)) (fun v hv => ?_)]
        · exact ih (i + 1) ex2 hsort.2
            (fun v hv => ⟨hrest v hv, by
              have := (hbd2 v hv).2
              simp only [List.length_cons] at this ⊢
              omega⟩)
            (fun k hk => hboth k ⟨by simp [hk.1], by simp [hk.2]⟩)
        · have hv2 : v / 2 - i = (v / 2 - (i + 1)) + 1 := by
            have := hrest v hv
            omega
          rw [hv2]
          simp
      · -- the head gate is kept
        have hrest : ∀ v ∈ e :: ex2, 2 * (i + 1) ≤ v := by
          intro v hv
          rcases List.mem_cons.mp hv with rfl | hv
          · omega
          · have := hsort.1 v hv; omega
        have hnotmem : ¬(2 * i ∈ e :: ex2 ∨ 2 * i + 1 ∈ e :: ex2) := by
          simp only [List.mem_cons]
          push_neg
          refine ⟨⟨by omega, fun hx => ?_⟩, by omega, fun hx => ?_⟩ <;>
            · have := hsort.1 _ hx; omega
        have hhead : (splitByEx (e :: ex2) (g :: gs) i) =
            ((splitByEx (e :: ex2) gs (i + 1)).1,
              g :: (splitByEx (e :: ex2) gs (i + 1)).2) := by
          simp only [splitByEx]
          rw [if_neg hnotmem]
        rw [hhead]
        rw [List.map_congr_left (g := fun v =>
              gs.getD (v / 2 - (i + 1)) (0, 0)) (fun v hv => ?_)]
        · exact ih (i + 1) (e :: ex2)
            (by simp only [List.pairwise_cons]; exact hsort)
            (fun v hv => ⟨hrest v hv, by
              have := (hbd v hv).2
              simp only [List.length_cons] at this ⊢
              omega⟩)
            hboth
        · have hv2 : v / 2 - i = (v / 2 - (i + 1)) + 1 := by
            have := hrest v hv
            omega
          rw [hv2]
          simp

/-- The conflict graph has no self-loops. -/
theorem violationsOf_irrefl (vs : List Vec4) : ∀ i, (i, i) ∉ violationsOf vs := by
  intro i h
  exact absurd (mem_violationsOf.mp h).1 (lt_irrefl i)

/-- Two gates of one layer share no qubit (layers are qubit-disjoint). -/
def disjQ (g h : Nat × Nat) : Prop :=
  g.1 ≠ h.1 ∧ g.1 ≠ h.2 ∧ g.2 ≠ h.1 ∧ g.2 ≠ h.2

instance : DecidableRel disjQ := fun g h => by
  unfold disjQ; infer_instance

/-- If every gate's two qubits sit at distinct sites, the greedy independent
set never selects both candidate vectors of one gate. -/
theorem ex_no_both (m : List (Int × Int)) (src : List (Nat × Nat))
    (hsites : ∀ g ∈ src, m.getD g.1 (0, 0) ≠ m.getD g.2 (0, 0)) :
    ∀ k, ¬(2 * k ∈ maximalis_solve_sort (vectorsOf m src).length
            (violationsOf (vectorsOf m src)) ∧
          2 * k + 1 ∈ maximalis_solve_sort (vectorsOf m src).length
            (violationsOf (vectorsOf m src))) := by
  intro k ⟨h0, h1⟩
  set vecs := vectorsOf m src with hvecs
  by_cases hk : k < src.length
  · -- the two candidates of gate k are joined by an incompatibility edge
    have hedge : (2 * k, 2 * k + 1) ∈ violationsOf vecs := by
      rw [mem_violationsOf]
      refine ⟨by omega, by rw [hvecs, vectorsOf_length]; omega, ?_⟩
      rw [hvecs, vectorsOf_getD_even m src k hk, vectorsOf_getD_odd m src k hk]
      have hmem : src.getD k (0, 0) ∈ src := by
        rw [List.getD_eq_getElem?_getD, List.getElem?_eq_getElem hk]
        simp only [Option.getD_some]
        exact List.getElem_mem hk
      have hg := hsites (src.getD k (0, 0)) hmem
      simp only [mkVecPair, List.getD_cons_zero, List.getD_cons_succ]
      apply candidate_pair_incompatible
      intro ⟨hc, hr⟩
      exact hg (Prod.ext hr hc)
    exact maximalis_solve_sort_independent vecs.length (violationsOf vecs)
      (violationsOf_irrefl vecs) (2 * k) (2 * k + 1) hedge ⟨h0, h1⟩
  · have := maximalis_solve_sort_lt vecs.length (violationsOf vecs) _ h0
    rw [hvecs, vectorsOf_length] at this
    omega

theorem lookup_eq_none_of_not_mem_fst {mt : List (Nat × Nat)} {q : Nat}
    (h : q ∉ mt.map Prod.fst) : mt.lookup q = none := by
  induction mt with
  | nil => rfl
  | cons p rest ih =>
    simp only [List.map_cons, List.mem_cons] at h
    push_neg at h
    rw [List.lookup_cons, show (q == p.1) = false from by simpa using h.1]
    exact ih h.2

theorem getD_set_ne {l : List (Int × Int)} {i q : Nat} {x d : Int × Int}
    (h : i ≠ q) : (l.set i x).getD q d = l.getD q d := by
  simp [List.getD_eq_getElem?_getD, List.getElem?_set_ne h]

/-- Qubits that are not movers keep their site through the mapping update. -/
theorem applyMoves_frame (mt : List (Nat × Nat)) (q : Nat)
    (hq : q ∉ mt.map Prod.fst) :
    ∀ m : List (Int × Int), (applyMoves mt m).getD q (0, 0) = m.getD q (0, 0) := by
  have key : ∀ (is : List Nat) (m : List (Int × Int)),
      ((is.foldl (fun mm i =>
        match mt.lookup i with
        | some t => mm.set i (mm.getD t (0, 0))
        | none => mm) m)).getD q (0, 0) = m.getD q (0, 0) := by
    intro is
    induction is with
    | nil => intro m; rfl
    | cons i rest ih =>
      intro m
      simp only [List.foldl_cons]
      rw [ih]
      by_cases hiq : i = q
      · subst hiq
        rw [lookup_eq_none_of_not_mem_fst hq]
      · cases hl : mt.lookup i with
        | none => rfl
        | some t => exact getD_set_ne hiq
  intro m
  exact key (List.range m.length) m

/-- Each mover is a qubit of the gate whose candidate vector selected it. -/
theorem moverTargets_fst_mem (remain : List (Nat × Nat)) (ex : List Nat) :
    ∀ p ∈ moverTargets remain ex, ∃ v ∈ ex,
      p.1 = (remain.getD (v / 2) (0, 0)).1 ∨
      p.1 = (remain.getD (v / 2) (0, 0)).2 := by
  intro p hp
  simp only [moverTargets, List.mem_map] at hp
  obtain ⟨v, hv, hpv⟩ := hp
  refine ⟨v, hv, ?_⟩
  split at hpv <;> subst hpv <;> simp

/-- Core accounting of the routing loop: the accumulated executed-gate list
is a permutation of the input gate list, provided the gates are pairwise
qubit-disjoint and every gate's two qubits occupy distinct sites. -/
theorem routeLoop_gates_perm (useWindow : Bool) :
    ∀ (fuel : Nat) (m : List (Int × Int)) (remain : List (Nat × Nat)),
      remain.length ≤ fuel →
      remain.Pairwise disjQ →
      (∀ g ∈ remain, m.getD g.1 (0, 0) ≠ m.getD g.2 (0, 0)) →
      ((routeLoopAux useWindow fuel m remain).1).Perm remain := by
  intro fuel
  induction fuel with
  | zero =>
    intro m remain hlen _ _
    cases remain with
    | nil => exact List.Perm.refl _
    | cons g gs => simp at hlen
  | succ fuel ih =>
    intro m remain hlen hdisj hsites
    cases remain with
    | nil => exact List.Perm.refl _
    | cons g gs =>
      rw [routeLoopAux_succ_cons]
      have hsrc_sub : (selectSrc useWindow (g :: gs)).Sublist (g :: gs) := by
        unfold selectSrc
        split
        · exact List.take_sublist _ _
        · exact List.Sublist.refl _
      have hsrc_len_pos : 0 < (selectSrc useWindow (g :: gs)).length := by
        unfold selectSrc vectorThreshold
        split <;> simp
      have hsrc_len_le : (selectSrc useWindow (g :: gs)).length ≤ (g :: gs).length :=
        hsrc_sub.length_le
      have hboth : ∀ k, ¬(2 * k ∈ iterEx useWindow m (g :: gs) ∧
          2 * k + 1 ∈ iterEx useWindow m (g :: gs)) :=
        ex_no_both m (selectSrc useWindow (g :: gs))
          (fun a ha => hsites a (hsrc_sub.mem ha))
      have hexlt : ∀ v ∈ iterEx useWindow m (g :: gs),
          v < 2 * (selectSrc useWindow (g :: gs)).length := by
        intro v hv
        have := maximalis_solve_sort_lt _ _ v hv
        rwa [vectorsOf_length] at this
      have hexec : (iterEx useWindow m (g :: gs)).map
            (fun v => (g :: gs).getD (v / 2) (0, 0)) =
          (splitByEx (iterEx useWindow m (g :: gs)) (g :: gs) 0).1 := by
        rw [← splitByEx_exec_eq (g :: gs) 0 (iterEx useWindow m (g :: gs))
          (maximalis_solve_sort_sorted _ _)
          (fun v hv => ⟨by omega, by
            have h1 := hexlt v hv
            have h2 : (selectSrc useWindow (g :: gs)).length ≤ (g :: gs).length :=
              hsrc_len_le
            omega⟩)
          hboth]
        simp
      have hzero : 0 ∈ iterEx useWindow m (g :: gs) := by
        apply maximalis_solve_sort_zero_mem
        rw [vectorsOf_length]
        omega
      have hrest_len :
          (splitByEx (iterEx useWindow m (g :: gs)) (g :: gs) 0).2.length ≤
            gs.length := by
        simp only [splitByEx]
        rw [if_pos (Or.inl (by simpa using hzero))]
        exact (splitByEx_snd_sublist gs 1 _).length_le
      have hrest_disj :
          (splitByEx (iterEx useWindow m (g :: gs)) (g :: gs) 0).2.Pairwise disjQ :=
        hdisj.sublist (splitByEx_snd_sublist (g :: gs) 0 _)
      -- qubits of kept gates are disjoint from all movers
      have hkept_frame :
          ∀ b ∈ (splitByEx (iterEx useWindow m (g :: gs)) (g :: gs) 0).2,
          ∀ q : Nat, (q = b.1 ∨ q = b.2) →
            q ∉ (moverTargets (g :: gs) (iterEx useWindow m (g :: gs))).map
              Prod.fst := by
        intro b hb q hq hqmem
        simp only [List.mem_map] at hqmem
        obtain ⟨p, hp, hpq⟩ := hqmem
        obtain ⟨v, hv, hmv⟩ := moverTargets_fst_mem (g :: gs) _ p hp
        have hmem1 : (g :: gs).getD (v / 2) (0, 0) ∈
            (splitByEx (iterEx useWindow m (g :: gs)) (g :: gs) 0).1 := by
          rw [← hexec]
          exact List.mem_map.mpr ⟨v, hv, rfl⟩
        have hcross := splitByEx_cross (g :: gs) 0 _ hdisj _ hmem1 b hb
        unfold disjQ at hcross
        subst hpq
        rcases hcross with ⟨h1, h2, h3, h4⟩ | ⟨h1, h2, h3, h4⟩ <;>
          rcases hq with hq | hq <;> rcases hmv with hmv | hmv <;> omega
      have hrest_sites :
          ∀ b ∈ (splitByEx (iterEx useWindow m (g :: gs)) (g :: gs) 0).2,
          (applyMoves (moverTargets (g :: gs) (iterEx useWindow m (g :: gs))) m).getD
              b.1 (0, 0) ≠
            (applyMoves (moverTargets (g :: gs) (iterEx useWindow m (g :: gs))) m).getD
              b.2 (0, 0) := by
        intro b hb
        rw [applyMoves_frame _ _ (hkept_frame b hb b.1 (Or.inl rfl)),
          applyMoves_frame _ _ (hkept_frame b hb b.2 (Or.inr rfl))]
        exact hsites b ((splitByEx_snd_sublist (g :: gs) 0 _).mem hb)
      have hlen2 :
          (splitByEx (iterEx useWindow m (g :: gs)) (g :: gs) 0).2.length ≤ fuel := by
        simp only [List.length_cons] at hlen
        omega
      have hrec := ih (applyMoves (moverTargets (g :: gs) (iterEx useWindow m (g :: gs))) m)
        ((splitByEx (iterEx useWindow m (g :: gs)) (g :: gs) 0).2)
        hlen2 hrest_disj hrest_sites
      have h1 : ((iterEx useWindow m (g :: gs)).map
            (fun v => (g :: gs).getD (v / 2) (0, 0)) ++
          (routeLoopAux useWindow fuel
            (applyMoves (moverTargets (g :: gs) (iterEx useWindow m (g :: gs))) m)
            ((splitByEx (iterEx useWindow m (g :: gs)) (g :: gs) 0).2)).1).Perm
          ((splitByEx (iterEx useWindow m (g :: gs)) (g :: gs) 0).1 ++
            (splitByEx (iterEx useWindow m (g :: gs)) (g :: gs) 0).2) := by
        rw [hexec]
        exact (List.Perm.refl _).append hrec
      exact h1.trans (splitByEx_append_perm (g :: gs) 0 _)

/-! ## Router and code generator: which Rydberg fires which gates

`route_qubit_mis` starts `layers` with one sub-layer (line 102), appends one
sub-layer with empty `gates` per loop iteration (line 219), and finally
attaches the accumulated `gates_dict` to the last sub-layer of the first
phase (line 246); the reverse-to-initial tail (lines 254-282) and re-place
tail (lines 293-341) append only sub-layers with empty `gates`.  The code
generator fires `Rydberg_0` with `layers[0]['gates']` unconditionally
(codegen.py line 1527) and, for `s >= 1`, a Rydberg exactly when
`layers[s]['gates']` is nonempty (codegen.py lines 1458-1461). -/

/-- The per-sub-layer gates lists of one routed layer: empty for sub-layer 0
and each loop iteration's sub-layer except the last of the first phase,
which carries the accumulated executed gates; `tail` extra sub-layers with
empty gates follow (reverse-to-initial or re-placement shuttling). -/
def routedGatesLists (useWindow : Bool) (m : List (Int × Int))
    (remain : List (Nat × Nat)) (tail : Nat) : List (List (Nat × Nat)) :=
  List.replicate (routeLoopAux useWindow remain.length m remain).2.2 [] ++
    [(routeLoopAux useWindow remain.length m remain).1] ++
    List.replicate tail []

/-- The gates lists fired by Rydberg instructions for one routed layer
(codegen.py `builder`, lines 1436-1461 together with `builder_init`
line 1527 and `builder_rydberg` lines 1531-1542). -/
def firedGateLists (ls : List (List (Nat × Nat))) : List (List (Nat × Nat)) :=
  match ls with
  | [] => []
  | g0 :: rest => g0 :: rest.filter (fun l => decide (l ≠ []))

theorem countP_firedGateLists (p : List (Nat × Nat) → Bool)
    (hp : p [] = false) (ls : List (List (Nat × Nat))) :
    (firedGateLists ls).countP p = ls.countP p := by
  cases ls with
  | nil => rfl
  | cons g0 rest =>
    simp only [firedGateLists, List.countP_cons]
    congr 1
    rw [List.countP_filter]
    apply List.countP_congr
    intro l _
    by_cases hl : l = []
    · subst hl; simp [hp]
    · simp [hl]

/-! ## Router: the returned mapping of route_qubit_mis (router_mis.py 88-355)

`route_qubit_mis` copies the input mapping into `initial_mapping` before the
loop (line 98), mutates `qubit_mapping` in place during routing, and returns
`initial_mapping` (line 355).  With `reverse_to_initial` the branch at lines
249-282 only appends reversed sub-layers and never reassigns
`initial_mapping`; without it (and with further layers pending) line 289
reassigns `initial_mapping` to the output of `place_qubit_partial`.  The
partial placer is floating-point simulated annealing, so it enters the model
as an opaque `replacer` function of the mapping it is given and the gates
routed in this layer. -/
def routeQubitMisMapping (useWindow reverse_to_initial hasNext : Bool)
    (replacer : List (Int × Int) → List (Nat × Nat) → List (Int × Int))
    (m : List (Int × Int)) (remain : List (Nat × Nat)) : List (Int × Int) :=
  let initial_mapping := m
  let r := routeLoopAux useWindow remain.length m remain
  if hasNext || reverse_to_initial then
    if reverse_to_initial then initial_mapping
    else replacer initial_mapping r.1
  else initial_mapping

/-! ## Scheduler (gate_scheduler.py) -/

/-- `graph_coloring_rustworkx` (gate_scheduler.py lines 119-131).  The call
`rx.graph_misra_gries_edge_color(graph)` is an external library routine; its
output, one color per gate index, enters the model as the function
`edge_colors`.  The wrapper computes `max_color` over the gate indices,
groups the gate indices by color (`result[edge_colors[i]].append(i)` in
index order equals grouping `range(len(list_gate))` by color), and returns
status `0` unconditionally. -/
def graph_coloring_rustworkx (n_qubit : Nat) (list_gate : List (Nat × Nat))
    (edge_colors : Nat → Nat) : Nat × List (List Nat) :=
  let max_color := (List.range list_gate.length).foldl
    (fun mc i => max mc (edge_colors i)) 0
  let result := (List.range (max_color + 1)).map
    (fun c => (List.range list_gate.length).filter (fun i => edge_colors i = c))
  (0, result)

/-- `gate_scheduling` (gate_scheduler.py lines 133-142): run the
rustworkx-based coloring and `assert status == 0`; `none` models the
AssertionError ("the output doesn't match Vizing's theorem"). -/
def gate_scheduling (n_qubit : Nat) (list_gate : List (Nat × Nat))
    (edge_colors : Nat → Nat) : Option (List (List Nat)) :=
  let sr := graph_coloring_rustworkx n_qubit list_gate edge_colors
  if sr.1 = 0 then some sr.2 else none

/-- The maximum degree `delta` of the gate graph, computed as the
repository's own `graph_coloring` does (gate_scheduler.py lines 84-90):
running maximum of `add_edge`'s return value, which is the larger endpoint
degree after inserting each edge (graph.py lines 28-39).  Gates hold two
distinct qubits at every call site, so bumping a shared endpoint once is
exact. -/
def graphColoringDelta (list_gate : List (Nat × Nat)) : Int :=
  (list_gate.foldl
    (fun (st : (Nat → Nat) × Int) e =>
      let deg := fun q => if q = e.1 ∨ q = e.2 then st.1 q + 1 else st.1 q
      (deg, max st.2 (max (deg e.1) (deg e.2))))
    ((fun _ => 0), -1)).2

/-! ## Placer geometry sizing (placer.py lines 57-61 and
placer_parital_mapping.py lines 59-63; the two blocks are identical) -/

/-- Floor of the integer square root, the value of `int(math.sqrt(n))`
(exact for the magnitudes in play): the largest `k ≤ n` with `k * k ≤ n`. -/
def isqrt (n : Nat) : Nat :=
  ((List.range (n + 1)).filter (fun k => decide (k * k ≤ n))).foldl max 0

/-- Working grid selection of `SAPlacer.run` and `SAPlacerPartial.run`:
`length = int(math.sqrt(n_qubit)) + 4` - the floor of the square root
(exact for `n_qubit` below 2^52) - clamp the chip to `length` in each
dimension, and fall back to the full chip when the clamped grid has fewer
cells than qubits. -/
def saChipDim (chip_dim : Nat × Nat) (n_qubit : Nat) : Nat × Nat :=
  let length := isqrt n_qubit + 4
  let cd := (min chip_dim.1 length, min chip_dim.2 length)
  if cd.1 * cd.2 < n_qubit then chip_dim else cd

/-- Ceiling of the integer square root. -/
def ceilSqrt (n : Nat) : Nat :=
  if isqrt n * isqrt n = n then isqrt n else isqrt n + 1

/-- The working-grid rule in the specification's words, for comparison with
`saChipDim`: virtual square side `length = ceil(sqrt(Nq)) + 4`, working grid
`(min(Nx, length), min(Ny, length))` unless that is too small to contain
all qubits, in which case the full chip. -/
def specWorkingGrid (chip_dim : Nat × Nat) (n_qubit : Nat) : Nat × Nat :=
  let length := ceilSqrt n_qubit + 4
  if min chip_dim.1 length * min chip_dim.2 length < n_qubit then chip_dim
  else (min chip_dim.1 length, min chip_dim.2 length)

/-! ## Partial placer (placer_parital_mapping.py)

Only the mapping-state dynamics are embedded: the cost model, temperature
schedule and acceptance test are floating point, but they decide only
*which* movements are performed (and whether `recover` undoes one), never
*how* a movement changes the mapping, so the frame theorem quantifies over
an arbitrary sequence of movements drawn from the sets the source draws
from. -/

/-- Candidate target cells (`init_sa_solution`, lines 127-133): every grid
cell not occupied by the input mapping, followed by the sites of the target
qubits. -/
def listPositionOf (chip_dim : Nat × Nat) (initial : List (Nat × Nat))
    (targets : List Nat) : List (Nat × Nat) :=
  ((List.range chip_dim.1).flatMap (fun x =>
    (List.range chip_dim.2).filterMap (fun y =>
      if (x, y) ∈ initial then none else some (x, y)))) ++
    targets.map (fun t => initial.getD t (0, 0))

/-- The physical-to-program occupancy grid (`init_sa_solution` lines
139-141): cell to occupying qubit, `-1` when empty; later indices
overwrite earlier ones. -/
def gridOf (initial : List (Nat × Nat)) : (Nat × Nat) → Int :=
  (List.range initial.length).foldl
    (fun grd i => fun p => if p = initial.getD i (0, 0) then (i : Int) else grd p)
    (fun _ => -1)

/-- The mapping plus occupancy grid that `SAPlacerPartial` mutates. -/
structure PState where
  mapping : List (Nat × Nat)
  grid : (Nat × Nat) → Int

/-- State-mutation core of `make_movement` (lines 184-245): move
`qubit_to_move` to `newPos`; when `newPos` is occupied its occupant swaps
into the vacated cell.  Writes happen in source order - mapping[mover],
grid[new], grid[old], mapping[affected] - so on `newPos = oldPos` the later
write wins, as in the source.  `recover` (lines 247-254) performs the same
four writes with the stored inverse movement, so it is one more instance of
this function. -/
def makeMovement (st : PState) (qubit_to_move : Nat) (newPos : Nat × Nat) :
    PState :=
  let oldPos := st.mapping.getD qubit_to_move (0, 0)
  let aff : Int := st.grid newPos
  let mapping1 := st.mapping.set qubit_to_move newPos
  let grid1 := fun p =>
    if p = oldPos then aff
    else if p = newPos then (qubit_to_move : Int) else st.grid p
  let mapping2 := if aff > -1 then mapping1.set aff.toNat oldPos else mapping1
  { mapping := mapping2, grid := grid1 }

theorem mem_listPositionOf {chip_dim : Nat × Nat} {initial : List (Nat × Nat)}
    {targets : List Nat} {p : Nat × Nat} :
    p ∈ listPositionOf chip_dim initial targets ↔
      ((p.1 < chip_dim.1 ∧ p.2 < chip_dim.2 ∧ p ∉ initial) ∨
        ∃ t ∈ targets, p = initial.getD t (0, 0)) := by
  obtain ⟨x, y⟩ := p
  simp only [listPositionOf, List.mem_append, List.mem_flatMap,
    List.mem_filterMap, List.mem_range, List.mem_map]
  constructor
  · rintro (⟨a, ha, b, hb, hif⟩ | ⟨t, ht, hp⟩)
    · split at hif
      · exact absurd hif (by simp)
      · rw [Option.some_inj] at hif
        obtain ⟨rfl, rfl⟩ := Prod.mk.injEq .. |>.mp hif.symm
        left
        exact ⟨ha, hb, by assumption⟩
    · exact Or.inr ⟨t, ht, hp.symm⟩
  · rintro (⟨hx, hy, hmem⟩ | ⟨t, ht, hp⟩)
    · exact Or.inl ⟨x, hx, y, hy, by rw [if_neg hmem]⟩
    · exact Or.inr ⟨t, ht, hp.symm⟩

theorem gridOf_spec (initial : List (Nat × Nat)) (p : Nat × Nat) :
    (gridOf initial p = -1 ∧
        ∀ i, i < initial.length → initial.getD i (0, 0) ≠ p) ∨
      (∃ i, i < initial.length ∧ gridOf initial p = (i : Int) ∧
        initial.getD i (0, 0) = p) := by
  have key : ∀ (is : List Nat) (g0 : (Nat × Nat) → Int),
      ((is.foldl (fun grd i => fun q =>
          if q = initial.getD i (0, 0) then (i : Int) else grd q) g0) p = g0 p ∧
        ∀ i ∈ is, initial.getD i (0, 0) ≠ p) ∨
      (∃ i ∈ is,
        (is.foldl (fun grd i => fun q =>
          if q = initial.getD i (0, 0) then (i : Int) else grd q) g0) p = (i : Int) ∧
        initial.getD i (0, 0) = p) := by
    intro is
    induction is with
    | nil => intro g0; exact Or.inl ⟨rfl, by simp⟩
    | cons i rest ih =>
      intro g0
      simp only [List.foldl_cons]
      rcases ih (fun q => if q = initial.getD i (0, 0) then (i : Int) else g0 q)
        with ⟨heq, hall⟩ | ⟨i', hi', heq, hget⟩
      · by_cases hp : p = initial.getD i (0, 0)
        · right
          exact ⟨i, by simp, by rw [heq, if_pos hp], hp.symm⟩
        · left
          refine ⟨by rw [heq, if_neg hp], ?_⟩
          intro j hj
          rcases List.mem_cons.mp hj with rfl | hj
          · exact fun h => hp h.symm
          · exact hall j hj
      · right
        exact ⟨i', by simp [hi'], heq, hget⟩
  rcases key (List.range initial.length) (fun _ => -1) with ⟨heq, hall⟩ | h
  · exact Or.inl ⟨heq, fun i hi => hall i (List.mem_range.mpr hi)⟩
  · obtain ⟨i, hi, heq, hget⟩ := h
    exact Or.inr ⟨i, List.mem_range.mp hi, heq, hget⟩

theorem getD_set_self {α : Type} {l : List α} {i : Nat} {x d : α}
    (h : i < l.length) : (l.set i x).getD i d = x := by
  simp [List.getD_eq_getElem?_getD, List.getElem?_set_self h]

theorem getD_set_of_ne {α : Type} {l : List α} {i q : Nat} {x d : α}
    (h : i ≠ q) : (l.set i x).getD q d = l.getD q d := by
  simp [List.getD_eq_getElem?_getD, List.getElem?_set_ne h]

/-- The invariant that carries the partial placer's frame property: the
mapping is as long as the input, qubits outside the target set still sit at
their input sites, target qubits sit inside the candidate-cell list, and
candidate cells are occupied only by target qubits (or empty). -/
def partialInv (init : List (Nat × Nat)) (targets : List Nat)
    (lp : List (Nat × Nat)) (st : PState) : Prop :=
  st.mapping.length = init.length ∧
    (∀ q, q < init.length → q ∉ targets →
      st.mapping.getD q (0, 0) = init.getD q (0, 0)) ∧
    (∀ t ∈ targets, st.mapping.getD t (0, 0) ∈ lp) ∧
    (∀ p ∈ lp, st.grid p = -1 ∨ ∃ t ∈ targets, st.grid p = (t : Int))

theorem makeMovement_inv {init : List (Nat × Nat)} {targets : List Nat}
    {lp : List (Nat × Nat)} {st : PState}
    (htb : ∀ t ∈ targets, t < init.length)
    (hinv : partialInv init targets lp st)
    {mover : Nat} {newPos : Nat × Nat}
    (hmover : mover ∈ targets) (hnew : newPos ∈ lp) :
    partialInv init targets lp (makeMovement st mover newPos) := by
  obtain ⟨hlen, hframe, hpos, hocc⟩ := hinv
  have hmlen : mover < st.mapping.length := hlen ▸ htb mover hmover
  have hmap : (makeMovement st mover newPos).mapping =
      if st.grid newPos > -1 then
        (st.mapping.set mover newPos).set (st.grid newPos).toNat
          (st.mapping.getD mover (0, 0))
      else st.mapping.set mover newPos := rfl
  have hgrid : ∀ p, (makeMovement st mover newPos).grid p =
      if p = st.mapping.getD mover (0, 0) then st.grid newPos
      else if p = newPos then (mover : Int) else st.grid p := fun _ => rfl
  have hocc' : ∀ p ∈ lp, (makeMovement st mover newPos).grid p = -1 ∨
      ∃ t ∈ targets, (makeMovement st mover newPos).grid p = (t : Int) := by
    intro p hp
    rw [hgrid p]
    by_cases h1 : p = st.mapping.getD mover (0, 0)
    · rw [if_pos h1]
      exact hocc newPos hnew
    · rw [if_neg h1]
      by_cases h2 : p = newPos
      · rw [if_pos h2]
        exact Or.inr ⟨mover, hmover, rfl⟩
      · rw [if_neg h2]
        exact hocc p hp
  rcases hocc newPos hnew with haff | ⟨t0, ht0, haff⟩
  · -- destination empty: only the mover's entry changes
    rw [haff] at hmap
    rw [if_neg (by omega)] at hmap
    refine ⟨by rw [hmap]; simpa using hlen, ?_, ?_, hocc'⟩
    · intro q hq hqt
      rw [hmap, getD_set_of_ne (by intro h; subst h; exact hqt hmover),
        hframe q hq hqt]
    · intro t ht
      rw [hmap]
      by_cases hteq : t = mover
      · subst hteq
        rw [getD_set_self hmlen]
        exact hnew
      · rw [getD_set_of_ne (by intro h; exact hteq h.symm)]
        exact hpos t ht
  · -- destination holds target qubit t0, which swaps to the vacated cell
    rw [haff] at hmap
    rw [if_pos (by omega)] at hmap
    have ht0nat : ((t0 : Int)).toNat = t0 := by omega
    rw [ht0nat] at hmap
    have ht0len : t0 < st.mapping.length := hlen ▸ htb t0 ht0
    refine ⟨by rw [hmap]; simpa using hlen, ?_, ?_, hocc'⟩
    · intro q hq hqt
      rw [hmap, getD_set_of_ne (by intro h; subst h; exact hqt ht0),
        getD_set_of_ne (by intro h; subst h; exact hqt hmover),
        hframe q hq hqt]
    · intro t ht
      rw [hmap]
      by_cases h0 : t = t0
      · subst h0
        rw [getD_set_self (by simpa using ht0len)]
        exact hpos mover hmover
      · rw [getD_set_of_ne (by intro h; exact h0 h.symm)]
        by_cases hm : t = mover
        · subst hm
          rw [getD_set_self hmlen]
          exact hnew
        · rw [getD_set_of_ne (by intro h; exact hm h.symm)]
          exact hpos t ht

theorem getD_mem_of_lt {α : Type} {l : List α} {i : Nat} {d : α}
    (h : i < l.length) : l.getD i d ∈ l := by
  rw [List.getD_eq_getElem?_getD, List.getElem?_eq_getElem h]
  simp only [Option.getD_some]
  exact List.getElem_mem h

theorem nodup_getD_inj {α : Type} [DecidableEq α] {l : List α} {i j : Nat}
    {d : α} (hnd : l.Nodup) (hi : i < l.length) (hj : j < l.length)
    (h : l.getD i d = l.getD j d) : i = j := by
  rw [List.getD_eq_getElem?_getD, List.getElem?_eq_getElem hi,
    List.getD_eq_getElem?_getD, List.getElem?_eq_getElem hj] at h
  simp only [Option.getD_some] at h
  by_contra hne
  rcases Nat.lt_or_ge i j with hlt | hge
  · exact (List.pairwise_iff_getElem.mp hnd i j hi hj hlt) h
  · have hlt : j < i := by omega
    exact (List.pairwise_iff_getElem.mp hnd j i hj hi hlt) h.symm

/-- The state the partial placer starts from satisfies the invariant. -/
theorem partialInv_init (chip_dim : Nat × Nat) (init : List (Nat × Nat))
    (targets : List Nat) (hnodup : init.Nodup)
    (htb : ∀ t ∈ targets, t < init.length) :
    partialInv init targets (listPositionOf chip_dim init targets)
      ⟨init, gridOf init⟩ := by
  refine ⟨rfl, fun q _ _ => rfl, ?_, ?_⟩
  · intro t ht
    exact mem_listPositionOf.mpr (Or.inr ⟨t, ht, rfl⟩)
  · intro p hp
    rcases mem_listPositionOf.mp hp with ⟨_, _, hnot⟩ | ⟨t, ht, hpt⟩
    · rcases gridOf_spec init p with ⟨heq, _⟩ | ⟨i, hi, _, hget⟩
      · exact Or.inl heq
      · exact absurd (hget ▸ getD_mem_of_lt hi) hnot
    · rcases gridOf_spec init p with ⟨heq, _⟩ | ⟨i, hi, heq, hget⟩
      · exact Or.inl heq
      · have : i = t :=
          nodup_getD_inj hnodup hi (htb t ht) (by rw [hget, hpt])
        exact Or.inr ⟨t, ht, by show gridOf init p = _; rw [heq, this]⟩

theorem makeMovement_fold_inv {init : List (Nat × Nat)} {targets : List Nat}
    {lp : List (Nat × Nat)} (htb : ∀ t ∈ targets, t < init.length) :
    ∀ (moves : List (Nat × (Nat × Nat))) (st : PState),
      partialInv init targets lp st →
      (∀ mv ∈ moves, mv.1 ∈ targets ∧ mv.2 ∈ lp) →
      partialInv init targets lp
        (moves.foldl (fun s mv => makeMovement s mv.1 mv.2) st) := by
  intro moves
  induction moves with
  | nil => intro st h _; exact h
  | cons mv rest ih =>
    intro st h hmv
    simp only [List.foldl_cons]
    exact ih _ (makeMovement_inv htb h (hmv mv (by simp)).1 (hmv mv (by simp)).2)
      (fun x hx => hmv x (by simp [hx]))

/-! ## Code generator: lattice state and instructions (codegen.py)

The movable-lattice state consists of the `Col`, `Row` and `Qubit` records
(codegen.py lines 38-59).  A `Col` and a `Row` have the same shape - an
active flag and one real coordinate - so one record type `Line` serves for
both; a line's id is its index in the state list.  Coordinates are integers
in the model; the source moves them between integer site positions and
integer `AOD_SEP` multiples.

Each instruction class runs `verify` (read-only, raising `ValueError` on a
violated precondition) and then `operate` (the state mutation) from its
`__init__` (lines 62-95); the `xxxExec` functions below return `none`
exactly when `verify` raises, in which case no state is produced and the
Col/Row/Qubit records are the untouched inputs. -/

structure Line where
  active : Bool
  pos : Int
deriving DecidableEq, Repr

/-- Default for out-of-range accesses (unreachable once verify passed). -/
def dLine : Line := ⟨false, 0⟩

inductive TrapKind
  | SLM
  | AOD
deriving DecidableEq, Repr

/-- A qubit record (codegen.py lines 38-45).  The source initializes
`c = r = -1`; the AOD indices are read only while the qubit is in the AOD
array, so they are modelled as naturals. -/
structure QubitR where
  array : TrapKind
  c : Nat
  r : Nat
  x : Int
  y : Int
deriving DecidableEq, Repr

def dQubit : QubitR := ⟨.SLM, 0, 0, 0, 0⟩

/-- In-place update of the record at one index (`objs[i].f = v`). -/
def modifyAt {α : Type} : List α → Nat → (α → α) → List α
  | [], _, _ => []
  | l :: ls, 0, f => f l :: ls
  | l :: ls, n + 1, f => l :: modifyAt ls n f

/-- Coordinates of the active lines, in id order. -/
def activeXs (ls : List Line) : List Int := (ls.filter (·.active)).map (·.pos)

/-- (id, coordinate) pairs of the active lines, in id order, starting the
id count at `n` (the source's scan over `col_objs` / `row_objs`,
codegen.py lines 434-447). -/
def activePairsFrom (n : Nat) : List Line → List (Nat × Int)
  | [] => []
  | l :: ls =>
    if l.active then (n, l.pos) :: activePairsFrom (n + 1) ls
    else activePairsFrom (n + 1) ls

def activePairs (ls : List Line) : List (Nat × Int) := activePairsFrom 0 ls

/-- Successive active coordinates at least `AOD_SEP` apart (the ordering
checks of Move/Activate/Deactivate all enforce this shape). -/
def gapOK : List Int → Bool
  | [] => true
  | [_] => true
  | a :: b :: t => decide (a + AOD_SEP ≤ b) && gapOK (b :: t)

/-- The active-lattice ordering invariant: the active column (or row)
coordinates are strictly increasing in id with gaps of at least
`AOD_SEP`. -/
def aodOrdered (ls : List Line) : Prop := gapOK (activeXs ls) = true

/-! ### Move (codegen.py lines 319-506) -/

/-- Update of one entry of the activated-lines scan
(`activated_col_xs[j] = col_end[i]`, codegen.py line 458).  The scanned
ids are the distinct indices of the active lines, so updating every pair
with matching id equals the source's positional update. -/
def setAct (acts : List (Nat × Int)) (id : Nat) (x : Int) : List (Nat × Int) :=
  acts.map (fun p => if p.1 = id then (id, x) else p)

/-- The per-move checks of `Move.verify` (codegen.py lines 448-458):
each moving line must be in the activated list ("is not activated"), its
begin coordinate must agree with the current threaded coordinate
("beginning x not agree"), and the threaded coordinate advances to the end
coordinate.  Ids in the activated list are distinct, so the begin check
over all matching pairs equals the source's `index`-based lookup. -/
def threadMoves :
    List (Nat × Int) → List (Nat × Int × Int) → Option (List (Nat × Int))
  | acts, [] => some acts
  | acts, (id, b, e) :: rest =>
    if acts.any (fun p => decide (p.1 = id)) then
      if acts.all (fun p => decide (p.1 = id → p.2 = b)) then
        threadMoves (setAct acts id e) rest
      else none
    else none

/-- `Move.verify` for one axis (codegen.py lines 416-465 for columns and
467-498 for rows): argument lengths agree, the current active coordinates
are ordered (the begin-position scan raises otherwise), the moves thread
through the activated list, and the final coordinates are ordered. -/
def moveVerifyAxis (ls : List Line) (idx : List Nat) (bs es : List Int) :
    Bool :=
  decide (idx.length = bs.length) && decide (idx.length = es.length) &&
  gapOK (activeXs ls) &&
  (match threadMoves (activePairs ls) (idx.zip (bs.zip es)) with
   | none => false
   | some final => gapOK (final.map Prod.snd))

/-- `Move.operate` for one axis (codegen.py lines 369-393): each line with
nonzero travel distance is set to its end coordinate. -/
def moveOperateAxis (ls : List Line) (idx : List Nat) (bs es : List Int) :
    List Line :=
  (idx.zip (bs.zip es)).foldl
    (fun acc p =>
      if p.2.2 ≠ p.2.1 then modifyAt acc p.1 (fun l => { l with pos := p.2.2 })
      else acc) ls

/-- AOD qubits follow their column and row (codegen.py lines 399-402). -/
def moveQubitUpdate (cols rows : List Line) (qs : List QubitR) :
    List QubitR :=
  qs.map (fun q =>
    if q.array = .AOD then
      { q with x := (cols.getD q.c dLine).pos, y := (rows.getD q.r dLine).pos }
    else q)

def moveVerify (cols rows : List Line) (cidx : List Nat) (cb ce : List Int)
    (ridx : List Nat) (rb r_e : List Int) : Bool :=
  moveVerifyAxis cols cidx cb ce && moveVerifyAxis rows ridx rb r_e

def moveOperate (cols rows : List Line) (qs : List QubitR) (cidx : List Nat)
    (cb ce : List Int) (ridx : List Nat) (rb r_e : List Int) :
    List Line × List Line × List QubitR :=
  let cols2 := moveOperateAxis cols cidx cb ce
  let rows2 := moveOperateAxis rows ridx rb r_e
  (cols2, rows2, moveQubitUpdate cols2 rows2 qs)

def moveExec (cols rows : List Line) (qs : List QubitR) (cidx : List Nat)
    (cb ce : List Int) (ridx : List Nat) (rb r_e : List Int) :
    Option (List Line × List Line × List QubitR) :=
  if moveVerify cols rows cidx cb ce ridx rb r_e then
    some (moveOperate cols rows qs cidx cb ce ridx rb r_e)
  else none

/-! ### Activate (codegen.py lines 509-680) -/

/-- Per-line checks of `Activate.verify` (codegen.py lines 603-622 for
columns, 623-642 for rows): the line to activate is currently inactive
("already activated"), every active line with smaller id is at least
`AOD_SEP` to the left ("too left/high"), and every active line with larger
id at least `AOD_SEP` to the right ("too right/low").  An out-of-range id
raises IndexError in the source, modelled as a failed check. -/
def activateVerifyAxis (ls : List Line) (pairs : List (Nat × Int)) : Bool :=
  pairs.all (fun p =>
    decide (p.1 < ls.length) &&
    !(ls.getD p.1 dLine).active &&
    ((List.range p.1).all (fun j =>
      !((ls.getD j dLine).active &&
        decide ((ls.getD j dLine).pos > p.2 - AOD_SEP)))) &&
    ((List.range ls.length).all (fun j =>
      !(decide (p.1 < j) && (ls.getD j dLine).active &&
        decide ((ls.getD j dLine).pos - AOD_SEP < p.2)))))

/-- The freshly activated trap intersections (codegen.py lines 644-655). -/
def activeXYs (cols rows : List Line) (col_xs row_ys : List Int) :
    List (Int × Int) :=
  (activeXs cols).flatMap (fun x => row_ys.map (fun y => (x, y))) ++
    (activeXs rows).flatMap (fun y => col_xs.map (fun x => (x, y))) ++
    col_xs.flatMap (fun x => row_ys.map (fun y => (x, y)))

/-- Pickup coincidence (codegen.py lines 666-680): every picked-up qubit
sits on a newly active intersection and no other qubit does. -/
def activatePickupCheck (cols rows : List Line) (qs : List QubitR)
    (col_xs row_ys : List Int) (pickup_qs : List Nat) : Bool :=
  (List.range qs.length).all (fun qid =>
    if qid ∈ pickup_qs then
      decide (((qs.getD qid dQubit).x, (qs.getD qid dQubit).y) ∈
        activeXYs cols rows col_xs row_ys)
    else
      !decide (((qs.getD qid dQubit).x, (qs.getD qid dQubit).y) ∈
        activeXYs cols rows col_xs row_ys))

def activateVerify (cols rows : List Line) (qs : List QubitR)
    (col_idx : List Nat) (col_xs : List Int) (row_idx : List Nat)
    (row_ys : List Int) (pickup_qs : List Nat) : Bool :=
  decide (col_idx.length = col_xs.length) &&
  decide (row_idx.length = row_ys.length) &&
  activateVerifyAxis cols (col_idx.zip col_xs) &&
  activateVerifyAxis rows (row_idx.zip row_ys) &&
  activatePickupCheck cols rows qs col_xs row_ys pickup_qs

/-- Activation of the listed lines (codegen.py lines 572-577): set active
and place at the given coordinate. -/
def actSet (ls : List Line) (pairs : List (Nat × Int)) : List Line :=
  pairs.foldl (fun acc p => modifyAt acc p.1 (fun _ => ⟨true, p.2⟩)) ls

def activateOperate (cols rows : List Line) (qs : List QubitR)
    (col_idx : List Nat) (col_xs : List Int) (row_idx : List Nat)
    (row_ys : List Int) (pickup_qs : List Nat) :
    List Line × List Line × List QubitR :=
  (actSet cols (col_idx.zip col_xs),
   actSet rows (row_idx.zip row_ys),
   pickup_qs.foldl (fun acc qid =>
     modifyAt acc qid (fun q => { q with array := .AOD })) qs)

def activateExec (cols rows : List Line) (qs : List QubitR)
    (col_idx : List Nat) (col_xs : List Int) (row_idx : List Nat)
    (row_ys : List Int) (pickup_qs : List Nat) :
    Option (List Line × List Line × List QubitR) :=
  if activateVerify cols rows qs col_idx col_xs row_idx row_ys pickup_qs then
    some (activateOperate cols rows qs col_idx col_xs row_idx row_ys pickup_qs)
  else none

/-! ### Deactivate (codegen.py lines 683-830) -/

/-- Per-line checks of `Deactivate.verify` (codegen.py lines 771-788 for
columns, 789-808 for rows): the line must currently be active ("already
dectivated") and its given coordinate must respect `AOD_SEP` against every
other active line, as in Activate. -/
def deactivateVerifyAxis (ls : List Line) (pairs : List (Nat × Int)) : Bool :=
  pairs.all (fun p =>
    decide (p.1 < ls.length) &&
    (ls.getD p.1 dLine).active &&
    ((List.range p.1).all (fun j =>
      !((ls.getD j dLine).active &&
        decide ((ls.getD j dLine).pos > p.2 - AOD_SEP)))) &&
    ((List.range ls.length).all (fun j =>
      !(decide (p.1 < j) && (ls.getD j dLine).active &&
        decide ((ls.getD j dLine).pos - AOD_SEP < p.2)))))

/-- The trap intersections released by this Deactivate (codegen.py lines
810-814): active column coordinates crossed with the given row
coordinates. -/
def deactiveXYs (cols : List Line) (row_ys : List Int) : List (Int × Int) :=
  (activeXs cols).flatMap (fun x => row_ys.map (fun y => (x, y)))

/-- Dropoff coincidence (codegen.py lines 816-830). -/
def deactivateDropoffCheck (cols : List Line) (qs : List QubitR)
    (row_ys : List Int) (dropoff_qs : List Nat) : Bool :=
  (List.range qs.length).all (fun qid =>
    if qid ∈ dropoff_qs then
      decide (((qs.getD qid dQubit).x, (qs.getD qid dQubit).y) ∈
        deactiveXYs cols row_ys)
    else if (qs.getD qid dQubit).array = .AOD then
      !decide (((qs.getD qid dQubit).x, (qs.getD qid dQubit).y) ∈
        deactiveXYs cols row_ys)
    else true)

def deactivateVerify (cols rows : List Line) (qs : List QubitR)
    (col_idx : List Nat) (col_xs : List Int) (row_idx : List Nat)
    (row_ys : List Int) (dropoff_qs : List Nat) : Bool :=
  decide (col_idx.length = col_xs.length) &&
  decide (row_idx.length = row_ys.length) &&
  deactivateVerifyAxis cols (col_idx.zip col_xs) &&
  deactivateVerifyAxis rows (row_idx.zip row_ys) &&
  deactivateDropoffCheck cols qs row_ys dropoff_qs

/-- `Deactivate.operate` (codegen.py lines 733-747). -/
def deactivateOperate (cols rows : List Line) (qs : List QubitR)
    (col_idx : List Nat) (row_idx : List Nat) (dropoff_qs : List Nat) :
    List Line × List Line × List QubitR :=
  (col_idx.foldl (fun acc id =>
      modifyAt acc id (fun l => { l with active := false })) cols,
   row_idx.foldl (fun acc id =>
      modifyAt acc id (fun l => { l with active := false })) rows,
   dropoff_qs.foldl (fun acc qid =>
      modifyAt acc qid (fun q => { q with array := .SLM })) qs)

def deactivateExec (cols rows : List Line) (qs : List QubitR)
    (col_idx : List Nat) (col_xs : List Int) (row_idx : List Nat)
    (row_ys : List Int) (dropoff_qs : List Nat) :
    Option (List Line × List Line × List QubitR) :=
  if deactivateVerify cols rows qs col_idx col_xs row_idx row_ys dropoff_qs then
    some (deactivateOperate cols rows qs col_idx row_idx dropoff_qs)
  else none

/-! ### Init (codegen.py lines 185-316) -/

/-- SLM targets are pairwise distinct (codegen.py lines 270-276). -/
def distinctXYs : List (Int × Int) → Bool
  | [] => true
  | x :: xs => !xs.contains x && distinctXYs xs

/-- `Init.verify` (codegen.py lines 251-277): idx/xys lengths agree and the
SLM targets are pairwise distinct.  Each xy has exactly two components by
typing (the source checks `len(i) == 2`). -/
def initVerify (slm_qubit_idx : List Nat) (slm_qubit_xys : List (Int × Int)) :
    Bool :=
  decide (slm_qubit_idx.length = slm_qubit_xys.length) &&
  distinctXYs slm_qubit_xys

/-- `Init.operate` (codegen.py lines 279-310).  The source sets the stray
attribute `activate` (not `active`) on the cols at line 299 and, iterating
`aod_col_act_idx`, on the rows at line 302, so no active flag changes; only
the coordinates and the qubit fields are written.  Every call site passes
empty aod arguments. -/
def initOperate (cols rows : List Line) (qs : List QubitR)
    (slm_qubit_idx : List Nat) (slm_qubit_xys : List (Int × Int))
    (aod_qubit_idx : List Nat) (aod_qubit_crs : List (Nat × Nat))
    (aod_col_act_idx : List Nat) (aod_col_xs : List Int)
    (aod_row_ys : List Int) : List Line × List Line × List QubitR :=
  let qs1 := (slm_qubit_idx.zip slm_qubit_xys).foldl
    (fun acc p => modifyAt acc p.1
      (fun q => { q with array := .SLM, x := p.2.1, y := p.2.2 })) qs
  let cols1 := (aod_col_act_idx.zip aod_col_xs).foldl
    (fun acc p => modifyAt acc p.1 (fun l => { l with pos := p.2 })) cols
  let rows1 := (aod_col_act_idx.zip aod_row_ys).foldl
    (fun acc p => modifyAt acc p.1 (fun l => { l with pos := p.2 })) rows
  let qs2 := (aod_qubit_idx.zip aod_qubit_crs).foldl
    (fun acc p => modifyAt acc p.1 (fun q =>
      { q with
        array := .AOD, c := p.2.1, r := p.2.2,
        x := (cols1.getD p.2.1 dLine).pos,
        y := (rows1.getD p.2.2 dLine).pos })) qs1
  (cols1, rows1, qs2)

def initExec (cols rows : List Line) (qs : List QubitR)
    (slm_qubit_idx : List Nat) (slm_qubit_xys : List (Int × Int))
    (aod_qubit_idx : List Nat) (aod_qubit_crs : List (Nat × Nat))
    (aod_col_act_idx : List Nat) (aod_col_xs : List Int)
    (aod_row_ys : List Int) :
    Option (List Line × List Line × List QubitR) :=
  if initVerify slm_qubit_idx slm_qubit_xys then
    some (initOperate cols rows qs slm_qubit_idx slm_qubit_xys aod_qubit_idx
      aod_qubit_crs aod_col_act_idx aod_col_xs aod_row_ys)
  else none

theorem modifyAt_length {α : Type} :
    ∀ (l : List α) (i : Nat) (f : α → α), (modifyAt l i f).length = l.length := by
  intro l
  induction l with
  | nil => intro i f; rfl
  | cons a t ih =>
    intro i f
    cases i with
    | zero => rfl
    | succ i => simp [modifyAt, ih]

theorem modifyAt_getD_self {α : Type} :
    ∀ (l : List α) (i : Nat) (f : α → α) (d : α), i < l.length →
      (modifyAt l i f).getD i d = f (l.getD i d) := by
  intro l
  induction l with
  | nil => intro i f d h; simp at h
  | cons a t ih =>
    intro i f d h
    cases i with
    | zero => rfl
    | succ i => exact ih i f d (by simpa using h)

theorem modifyAt_getD_ne {α : Type} :
    ∀ (l : List α) (i k : Nat) (f : α → α) (d : α), i ≠ k →
      (modifyAt l i f).getD k d = l.getD k d := by
  intro l
  induction l with
  | nil => intro i k f d _; rfl
  | cons a t ih =>
    intro i k f d hik
    cases i with
    | zero =>
      cases k with
      | zero => exact absurd rfl hik
      | succ k => rfl
    | succ i =>
      cases k with
      | zero => rfl
      | succ k => exact ih i k f d (by omega)

/-- The relation the invariant chains: an `AOD_SEP` gap. -/
theorem gapOK_iff_pairwise :
    ∀ l : List Int, gapOK l = true ↔ l.Pairwise (fun a b => a + AOD_SEP ≤ b) := by
  intro l
  induction l with
  | nil => simp [gapOK]
  | cons a t ih =>
    cases t with
    | nil => simp [gapOK]
    | cons b t2 =>
      simp only [gapOK, Bool.and_eq_true, decide_eq_true_eq]
      constructor
      · rintro ⟨hab, hrest⟩
        have hp := ih.mp hrest
        refine List.Pairwise.cons ?_ hp
        intro x hx
        rcases List.mem_cons.mp hx with rfl | hx
        · exact hab
        · have hb := (List.pairwise_cons.mp hp).1 x hx
          have hS : AOD_SEP = 2 := rfl
          omega
      · intro h
        have h1 := List.pairwise_cons.mp h
        exact ⟨h1.1 b (by simp), ih.mpr h1.2⟩

theorem activePairsFrom_fst_ge :
    ∀ (ls : List Line) (n : Nat), ∀ p ∈ activePairsFrom n ls, n ≤ p.1 := by
  intro ls
  induction ls with
  | nil => intro n p hp; simp [activePairsFrom] at hp
  | cons l t ih =>
    intro n p hp
    simp only [activePairsFrom] at hp
    split at hp
    · rcases List.mem_cons.mp hp with rfl | hp
      · exact le_refl n
      · have := ih (n + 1) p hp; omega
    · have := ih (n + 1) p hp; omega

theorem activeXs_eq_activePairsFrom_map :
    ∀ (ls : List Line) (n : Nat),
      activeXs ls = (activePairsFrom n ls).map Prod.snd := by
  intro ls
  induction ls with
  | nil => intro n; rfl
  | cons l t ih =>
    intro n
    by_cases ha : l.active
    · show ((l :: t).filter (·.active)).map (·.pos) = _
      rw [List.filter_cons, if_pos (by simpa using ha)]
      show l.pos :: activeXs t = _
      unfold activePairsFrom
      rw [if_pos ha, List.map_cons, ih (n + 1)]
    · show ((l :: t).filter (·.active)).map (·.pos) = _
      rw [List.filter_cons, if_neg (by simpa using ha)]
      show activeXs t = _
      unfold activePairsFrom
      rw [if_neg ha]
      exact ih (n + 1)

theorem setAct_id {acts : List (Nat × Int)} {i0 : Nat} {x : Int}
    (h : ∀ p ∈ acts, p.1 = i0 → p.2 = x) : setAct acts i0 x = acts := by
  unfold setAct
  rw [List.map_congr_left (g := fun p => p) (fun p hp => ?_), List.map_id']
  by_cases hpi : p.1 = i0
  · rw [if_pos hpi]
    rw [← hpi, ← h p hp hpi]
  · rw [if_neg hpi]

theorem activePairsFrom_modify_pos :
    ∀ (ls : List Line) (n i : Nat) (x : Int),
      activePairsFrom n (modifyAt ls i (fun l => { l with pos := x })) =
        setAct (activePairsFrom n ls) (n + i) x := by
  intro ls
  induction ls with
  | nil => intro n i x; rfl
  | cons l t ih =>
    intro n i x
    cases i with
    | zero =>
      rw [Nat.add_zero]
      show activePairsFrom n ({ l with pos := x } :: t) = _
      by_cases ha : l.active
      · unfold activePairsFrom
        rw [if_pos (by simpa using ha), if_pos ha]
        unfold setAct
        simp only [List.map_cons]
        rw [if_pos (by simp)]
        have hrest : setAct (activePairsFrom (n + 1) t) n x =
            activePairsFrom (n + 1) t := by
          apply setAct_id
          intro p hp hpeq
          have := activePairsFrom_fst_ge t (n + 1) p hp
          omega
        unfold setAct at hrest
        rw [hrest]
      · unfold activePairsFrom
        rw [if_neg (by simpa using ha), if_neg ha]
        symm
        apply setAct_id
        intro p hp hpeq
        have := activePairsFrom_fst_ge t (n + 1) p hp
        omega
    | succ i =>
      show activePairsFrom n (l :: modifyAt t i _) = _
      by_cases ha : l.active
      · unfold activePairsFrom
        rw [if_pos ha, if_pos ha]
        unfold setAct
        simp only [List.map_cons]
        rw [if_neg (by simp)]
        have hrec := ih (n + 1) i x
        unfold setAct at hrec
        rw [show (n + 1) + i = n + (i + 1) from by omega] at hrec
        rw [hrec]
      · unfold activePairsFrom
        rw [if_neg ha, if_neg ha]
        have hrec := ih (n + 1) i x
        rw [show (n + 1) + i = n + (i + 1) from by omega] at hrec
        rw [hrec]

/-- The threaded activated list of `Move.verify` describes the state
`Move.operate` leaves behind. -/
theorem threadMoves_operate :
    ∀ (ts : List (Nat × Int × Int)) (ls : List Line)
      (final : List (Nat × Int)),
      threadMoves (activePairs ls) ts = some final →
      activePairs ((ts.foldl
        (fun acc p =>
          if p.2.2 ≠ p.2.1 then
            modifyAt acc p.1 (fun l => { l with pos := p.2.2 })
          else acc) ls)) = final := by
  intro ts
  induction ts with
  | nil =>
    intro ls final h
    simp only [threadMoves, Option.some_inj] at h
    simpa using h
  | cons p rest ih =>
    intro ls final h
    obtain ⟨id, b, e⟩ := p
    simp only [threadMoves] at h
    split at h
    · split at h
      · rename_i hany hall
        simp only [List.foldl_cons]
        have hstep : activePairs (if e ≠ b then
            modifyAt ls id (fun l => { l with pos := e }) else ls) =
            setAct (activePairs ls) id e := by
          by_cases heb : e = b
          · subst heb
            rw [if_neg (by simp)]
            symm
            apply setAct_id
            intro q hq hqid
            have := List.all_eq_true.mp hall q hq
            simp only [decide_eq_true_eq] at this
            exact this hqid
          · rw [if_pos heb]
            have := activePairsFrom_modify_pos ls 0 id e
            simpa using this
        have hrec := ih (if e ≠ b then
            modifyAt ls id (fun l => { l with pos := e }) else ls) final
          (by rw [show activePairs (if e ≠ b then
              modifyAt ls id (fun l => { l with pos := e }) else ls) =
              setAct (activePairs ls) id e from hstep]; exact h)
        exact hrec
      · exact absurd h (by simp)
    · exact absurd h (by simp)

/-- A Move whose verify succeeds leaves the axis ordered. -/
theorem moveVerifyAxis_preserves (ls : List Line) (idx : List Nat)
    (bs es : List Int) (h : moveVerifyAxis ls idx bs es = true) :
    aodOrdered (moveOperateAxis ls idx bs es) := by
  unfold moveVerifyAxis at h
  simp only [Bool.and_eq_true] at h
  obtain ⟨⟨_, _⟩, hfinal⟩ := h
  unfold aodOrdered
  cases hth : threadMoves (activePairs ls) (idx.zip (bs.zip es)) with
  | none => rw [hth] at hfinal; exact absurd hfinal (by simp)
  | some final =>
    rw [hth] at hfinal
    have := threadMoves_operate (idx.zip (bs.zip es)) ls final hth
    unfold moveOperateAxis
    rw [activeXs_eq_activePairsFrom_map _ 0]
    show gapOK ((activePairs _).map Prod.snd) = true
    rw [this]
    exact hfinal

theorem getElem_eq_getD {α : Type} {l : List α} {i : Nat} (h : i < l.length)
    (d : α) : l[i] = l.getD i d := by
  rw [List.getD_eq_getElem?_getD, List.getElem?_eq_getElem h]
  rfl

theorem activeXs_cons (l : Line) (t : List Line) :
    activeXs (l :: t) =
      if l.active = true then l.pos :: activeXs t else activeXs t := by
  unfold activeXs
  rw [List.filter_cons]
  split <;> rfl

/-- Deactivating one line keeps a subsequence of the active coordinates. -/
theorem activeXs_deactivate_sublist :
    ∀ (ls : List Line) (i : Nat),
      (activeXs (modifyAt ls i (fun l => { l with active := false }))).Sublist
        (activeXs ls) := by
  intro ls
  induction ls with
  | nil => intro i; exact List.Sublist.refl _
  | cons l t ih =>
    intro i
    cases i with
    | zero =>
      show (activeXs ({ l with active := false } :: t)).Sublist _
      rw [activeXs_cons, activeXs_cons]
      rw [if_neg (show ¬(({ l with active := false } : Line).active = true)
        from by simp)]
      by_cases ha : l.active = true
      · rw [if_pos ha]
        exact List.sublist_cons_self _ _
      · rw [if_neg ha]
    | succ i =>
      show (activeXs (l :: modifyAt t i _)).Sublist _
      rw [activeXs_cons, activeXs_cons]
      split
      · exact (ih i).cons₂ _
      · exact ih i

theorem gapOK_sublist {l1 l2 : List Int} (h : gapOK l2 = true)
    (hs : l1.Sublist l2) : gapOK l1 = true :=
  (gapOK_iff_pairwise l1).mpr (((gapOK_iff_pairwise l2).mp h).sublist hs)

/-- Any Deactivate operate preserves the ordering invariant. -/
theorem deactFold_preserves (idx : List Nat) :
    ∀ ls : List Line, aodOrdered ls →
      aodOrdered (idx.foldl (fun acc id =>
        modifyAt acc id (fun l => { l with active := false })) ls) := by
  induction idx with
  | nil => intro ls h; exact h
  | cons i rest ih =>
    intro ls h
    simp only [List.foldl_cons]
    exact ih _ (gapOK_sublist h (activeXs_deactivate_sublist ls i))

/-! ### The invariant as a pairwise relation on the line records -/

/-- Gap condition between two line records (in id order). -/
def lineGap (l1 l2 : Line) : Prop :=
  l1.active = true → l2.active = true → l1.pos + AOD_SEP ≤ l2.pos

theorem mem_activeXs {ls : List Line} {x : Int} :
    x ∈ activeXs ls ↔ ∃ l ∈ ls, l.active = true ∧ l.pos = x := by
  simp only [activeXs, List.mem_map, List.mem_filter]
  constructor
  · rintro ⟨l, ⟨hl, ha⟩, rfl⟩
    exact ⟨l, hl, by simpa using ha, rfl⟩
  · rintro ⟨l, hl, ha, rfl⟩
    exact ⟨l, ⟨hl, by simpa using ha⟩, rfl⟩

theorem pairwise_activeXs_iff :
    ∀ ls : List Line,
      (activeXs ls).Pairwise (fun a b => a + AOD_SEP ≤ b) ↔
        ls.Pairwise lineGap := by
  intro ls
  induction ls with
  | nil => simp [activeXs]
  | cons l t ih =>
    rw [activeXs_cons]
    by_cases ha : l.active = true
    · rw [if_pos ha]
      simp only [List.pairwise_cons]
      constructor
      · rintro ⟨hfst, hrest⟩
        refine ⟨?_, ih.mp hrest⟩
        intro b hb hla hba
        exact hfst b.pos (mem_activeXs.mpr ⟨b, hb, hba, rfl⟩)
      · rintro ⟨hfst, hrest⟩
        refine ⟨?_, ih.mpr hrest⟩
        intro x hx
        obtain ⟨b, hb, hba, rfl⟩ := mem_activeXs.mp hx
        exact hfst b hb ha hba
    · rw [if_neg ha]
      rw [ih]
      simp only [List.pairwise_cons]
      constructor
      · intro h
        refine ⟨?_, h⟩
        intro b _ hla _
        exact absurd hla ha
      · exact fun h => h.2

theorem aodOrdered_iff_pairwise (ls : List Line) :
    aodOrdered ls ↔ ls.Pairwise lineGap := by
  unfold aodOrdered
  rw [gapOK_iff_pairwise, pairwise_activeXs_iff]

/-! ### Activate preservation -/

theorem actSet_length :
    ∀ (pairs : List (Nat × Int)) (ls : List Line),
      (actSet ls pairs).length = ls.length := by
  intro pairs
  induction pairs with
  | nil => intro ls; rfl
  | cons p rest ih =>
    intro ls
    show (actSet (modifyAt ls p.1 _) rest).length = _
    rw [ih, modifyAt_length]

theorem actSet_getD :
    ∀ (pairs : List (Nat × Int)) (ls : List Line) (k : Nat),
      pairs.Pairwise (fun p q => p.1 ≠ q.1) → k < ls.length →
      (actSet ls pairs).getD k dLine =
        (match pairs.find? (fun p => p.1 == k) with
          | some p => (⟨true, p.2⟩ : Line)
          | none => ls.getD k dLine) := by
  intro pairs
  induction pairs with
  | nil => intro ls k _ _; rfl
  | cons p rest ih =>
    intro ls k hnd hk
    simp only [List.pairwise_cons] at hnd
    show (actSet (modifyAt ls p.1 _) rest).getD k dLine = _
    rw [ih _ k hnd.2 (by rw [modifyAt_length]; exact hk)]
    rw [List.find?_cons]
    by_cases hpk : p.1 = k
    · rw [show (p.1 == k) = true from by simpa using hpk]
      have hnone : rest.find? (fun q => q.1 == k) = none := by
        rw [List.find?_eq_none]
        intro q hq
        simpa using fun hqk => hnd.1 q hq (by omega)
      rw [hnone]
      subst hpk
      rw [modifyAt_getD_self _ _ _ _ hk]
    · rw [show (p.1 == k) = false from by simpa using hpk]
      cases hfind : rest.find? (fun q => q.1 == k) with
      | some q => rfl
      | none => rw [modifyAt_getD_ne _ _ _ _ _ hpk]

/-- What a successful Activate verify promises about each newly activated
line: in range, currently inactive, and respecting the `AOD_SEP` order
against every currently active line on either side. -/
theorem activateVerifyAxis_spec {ls : List Line} {pairs : List (Nat × Int)}
    (h : activateVerifyAxis ls pairs = true) :
    ∀ p ∈ pairs, p.1 < ls.length ∧ (ls.getD p.1 dLine).active = false ∧
      (∀ j, j < p.1 → (ls.getD j dLine).active = true →
        (ls.getD j dLine).pos + AOD_SEP ≤ p.2) ∧
      (∀ j, p.1 < j → j < ls.length → (ls.getD j dLine).active = true →
        p.2 + AOD_SEP ≤ (ls.getD j dLine).pos) := by
  intro p hp
  have hall := List.all_eq_true.mp h p hp
  simp only [Bool.and_eq_true, decide_eq_true_eq, Bool.not_eq_true',
    List.all_eq_true, List.mem_range] at hall
  obtain ⟨⟨⟨hlen, hinact⟩, hleft⟩, hright⟩ := hall
  refine ⟨hlen, hinact, ?_, ?_⟩
  · intro j hj hact
    have hb := hleft j hj
    rw [hact, Bool.true_and, decide_eq_false_iff_not, not_lt] at hb
    omega
  · intro j hij hj hact
    have hb := hright j hj
    rw [show decide (p.1 < j) = true from by simpa using hij, hact,
      Bool.true_and, Bool.true_and, decide_eq_false_iff_not, not_lt] at hb
    omega

/-- Orderliness of the new lines among themselves - the condition
`Activate.verify` does not check (it compares new lines only against
already-active ones). -/
def newOK (p q : Nat × Int) : Prop :=
  p.1 ≠ q.1 ∧ (p.1 < q.1 → p.2 + AOD_SEP ≤ q.2) ∧
    (q.1 < p.1 → q.2 + AOD_SEP ≤ p.2)

theorem newOK_symm : Symmetric newOK := by
  rintro p q ⟨h1, h2, h3⟩
  exact ⟨h1.symm, h3, h2⟩

/-- An Activate whose verify succeeds preserves the ordering invariant,
provided additionally that the newly activated lines are orderly among
themselves. -/
theorem activateAxis_preserves (ls : List Line) (pairs : List (Nat × Int))
    (hord : aodOrdered ls) (hnew : pairs.Pairwise newOK)
    (hver : activateVerifyAxis ls pairs = true) :
    aodOrdered (actSet ls pairs) := by
  have hnd : pairs.Pairwise (fun p q => p.1 ≠ q.1) :=
    hnew.imp (fun h => h.1)
  have hspec := activateVerifyAxis_spec hver
  rw [aodOrdered_iff_pairwise] at hord ⊢
  rw [List.pairwise_iff_getElem] at hord ⊢
  intro i j hi hj hij
  rw [actSet_length] at hi hj
  rw [getElem_eq_getD (by rw [actSet_length]; exact hi) dLine,
    getElem_eq_getD (by rw [actSet_length]; exact hj) dLine,
    actSet_getD pairs ls i hnd hi, actSet_getD pairs ls j hnd hj]
  cases hfi : pairs.find? (fun p => p.1 == i) with
  | none =>
    cases hfj : pairs.find? (fun p => p.1 == j) with
    | none =>
      simp only
      have := hord i j hi hj hij
      rwa [getElem_eq_getD hi dLine, getElem_eq_getD hj dLine] at this
    | some q =>
      simp only
      have hq1 : q.1 = j := by
        have := List.find?_some hfj
        simpa using this
      have hqmem := List.mem_of_find?_eq_some hfj
      intro hact _
      have := (hspec q hqmem).2.2.1 i (by omega) hact
      simpa using this
  | some q =>
    have hq1 : q.1 = i := by
      have := List.find?_some hfi
      simpa using this
    have hqmem := List.mem_of_find?_eq_some hfi
    cases hfj : pairs.find? (fun p => p.1 == j) with
    | none =>
      simp only
      intro _ hact
      have := (hspec q hqmem).2.2.2 j (by omega) hj hact
      simpa using this
    | some q2 =>
      simp only
      have hq21 : q2.1 = j := by
        have := List.find?_some hfj
        simpa using this
      have hq2mem := List.mem_of_find?_eq_some hfj
      intro _ _
      have hne : q ≠ q2 := by
        intro he
        rw [he] at hq1
        omega
      have hok := hnew.forall newOK_symm hqmem hq2mem hne
      have := hok.2.1 (by omega)
      simpa using this

instance : DecidableRel newOK := fun p q => by
  unfold newOK; infer_instance

instance (ls : List Line) : Decidable (aodOrdered ls) := by
  unfold aodOrdered; infer_instance

theorem disjQ_symm : ∀ {g h : Nat × Nat}, disjQ g h → disjQ h g := by
  rintro g h ⟨h1, h2, h3, h4⟩
  exact ⟨h1.symm, h3.symm, h2.symm, h4.symm⟩

/-! ## Claim theorems -/

/-- C10: `compatible_2D` is symmetric, so the incompatibility edge list,
built by testing only ordered pairs `i < j`, defines the same undirected
conflict relation in both directions: each recorded edge witnesses
incompatibility of its endpoints in either order. -/
theorem c10_compatible_2D_symmetric :
    (∀ a b : Vec4, compatible_2D a b = compatible_2D b a) ∧
    (∀ (vs : List Vec4) (i j : Nat), (i, j) ∈ violationsOf vs →
      compatible_2D (vs.getD i vec0) (vs.getD j vec0) = false ∧
      compatible_2D (vs.getD j vec0) (vs.getD i vec0) = false) := by
  refine ⟨compatible_2D_comm, ?_⟩
  intro vs i j h
  have h1 := (mem_violationsOf.mp h).2.2
  exact ⟨h1, by rw [compatible_2D_comm]; exact h1⟩

theorem c10_witness :
    compatible_2D (([⟨0, 0, 0, 0⟩, ⟨0, 1, 0, 0⟩] : List Vec4).getD 0 vec0)
        (([⟨0, 0, 0, 0⟩, ⟨0, 1, 0, 0⟩] : List Vec4).getD 1 vec0) = false ∧
      compatible_2D (([⟨0, 0, 0, 0⟩, ⟨0, 1, 0, 0⟩] : List Vec4).getD 1 vec0)
        (([⟨0, 0, 0, 0⟩, ⟨0, 1, 0, 0⟩] : List Vec4).getD 0 vec0) = false :=
  c10_compatible_2D_symmetric.2 [⟨0, 0, 0, 0⟩, ⟨0, 1, 0, 0⟩] 0 1 (by decide)

/-- C3: the vertex set returned by `maximalis_solve_sort` over the
incompatibility edges contains no two vertices joined by an edge; hence the
selected motion vectors are pairwise `compatible_2D`; and since the two
candidate motions of one gate are mutually incompatible whenever the gate's
two qubits occupy distinct sites, at most one of each gate's two candidates
is ever selected. -/
theorem c3_selected_motions_compatible :
    (∀ (vs : List Vec4) (i j : Nat), (i, j) ∈ violationsOf vs →
      ¬(i ∈ maximalis_solve_sort vs.length (violationsOf vs) ∧
        j ∈ maximalis_solve_sort vs.length (violationsOf vs))) ∧
    (∀ (vs : List Vec4) (i j : Nat),
      i ∈ maximalis_solve_sort vs.length (violationsOf vs) →
      j ∈ maximalis_solve_sort vs.length (violationsOf vs) →
      i < j → j < vs.length →
      compatible_2D (vs.getD i vec0) (vs.getD j vec0) = true) ∧
    (∀ (m : List (Int × Int)) (src : List (Nat × Nat)) (k : Nat),
      (∀ g ∈ src, m.getD g.1 (0, 0) ≠ m.getD g.2 (0, 0)) →
      ¬(2 * k ∈ maximalis_solve_sort (vectorsOf m src).length
          (violationsOf (vectorsOf m src)) ∧
        2 * k + 1 ∈ maximalis_solve_sort (vectorsOf m src).length
          (violationsOf (vectorsOf m src)))) := by
  refine ⟨?_, ?_, fun m src k h => ex_no_both m src h k⟩
  · intro vs i j h
    exact maximalis_solve_sort_independent vs.length (violationsOf vs)
      (violationsOf_irrefl vs) i j h
  · intro vs i j hi hj hij hjlen
    rcases hcomp : compatible_2D (vs.getD i vec0) (vs.getD j vec0) with _ | _
    · exact absurd ⟨hi, hj⟩
        (maximalis_solve_sort_independent vs.length (violationsOf vs)
          (violationsOf_irrefl vs) i j
          (mem_violationsOf.mpr ⟨hij, hjlen, hcomp⟩))
    · rfl

theorem c3_witness :
    (¬(0 ∈ maximalis_solve_sort ([⟨0, 0, 0, 0⟩, ⟨0, 1, 0, 0⟩] : List Vec4).length
        (violationsOf [⟨0, 0, 0, 0⟩, ⟨0, 1, 0, 0⟩]) ∧
      1 ∈ maximalis_solve_sort ([⟨0, 0, 0, 0⟩, ⟨0, 1, 0, 0⟩] : List Vec4).length
        (violationsOf [⟨0, 0, 0, 0⟩, ⟨0, 1, 0, 0⟩]))) ∧
    compatible_2D (([⟨0, 0, 0, 0⟩, ⟨5, 5, 5, 5⟩] : List Vec4).getD 0 vec0)
      (([⟨0, 0, 0, 0⟩, ⟨5, 5, 5, 5⟩] : List Vec4).getD 1 vec0) = true ∧
    ¬(2 * 0 ∈ maximalis_solve_sort
        (vectorsOf [(0, 0), (1, 1)] [(0, 1)]).length
        (violationsOf (vectorsOf [(0, 0), (1, 1)] [(0, 1)])) ∧
      2 * 0 + 1 ∈ maximalis_solve_sort
        (vectorsOf [(0, 0), (1, 1)] [(0, 1)]).length
        (violationsOf (vectorsOf [(0, 0), (1, 1)] [(0, 1)]))) :=
  ⟨c3_selected_motions_compatible.1 [⟨0, 0, 0, 0⟩, ⟨0, 1, 0, 0⟩] 0 1 (by decide),
   c3_selected_motions_compatible.2.1 [⟨0, 0, 0, 0⟩, ⟨5, 5, 5, 5⟩] 0 1
     (by decide) (by decide) (by decide) (by decide),
   c3_selected_motions_compatible.2.2 [(0, 0), (1, 1)] [(0, 1)] 0 (by decide)⟩

/-- C2: for a scheduled layer whose gates are pairwise qubit-disjoint and
whose qubits occupy distinct sites, the routing loop executes every gate of
the layer exactly once (the accumulated `gates_dict` is a permutation of
the layer), and each gate then appears in the gates list of exactly one
Rydberg instruction fired by the code generator for that layer. -/
theorem c2_each_gate_fired_once :
    ∀ (useWindow : Bool) (tail : Nat) (m : List (Int × Int))
      (layer remain : List (Nat × Nat)),
      remain.Perm layer →
      layer.Pairwise disjQ →
      (∀ g ∈ layer, m.getD g.1 (0, 0) ≠ m.getD g.2 (0, 0)) →
      ((routeLoopAux useWindow remain.length m remain).1.Perm layer) ∧
      ∀ g ∈ layer,
        ((firedGateLists (routedGatesLists useWindow m remain tail)).countP
          (fun l => decide (g ∈ l))) = 1 := by
  intro useWindow tail m layer remain hperm hdisj hsites
  have hdisj' : remain.Pairwise disjQ :=
    (hperm.pairwise_iff (fun h => disjQ_symm h)).mpr hdisj
  have hsites' : ∀ g ∈ remain, m.getD g.1 (0, 0) ≠ m.getD g.2 (0, 0) :=
    fun g hg => hsites g (hperm.subset hg)
  have hloop := routeLoop_gates_perm useWindow remain.length m remain
    (le_refl _) hdisj' hsites'
  have hfinal := hloop.trans hperm
  refine ⟨hfinal, ?_⟩
  intro g hg
  have hgdict : g ∈ (routeLoopAux useWindow remain.length m remain).1 :=
    hfinal.mem_iff.mpr hg
  rw [countP_firedGateLists _ (by simp)]
  unfold routedGatesLists
  rw [List.countP_append, List.countP_append]
  have h0 : ∀ k : Nat, (List.replicate k ([] : List (Nat × Nat))).countP
      (fun l => decide (g ∈ l)) = 0 := by
    intro k
    rw [List.countP_eq_zero]
    intro a ha
    rw [List.eq_of_mem_replicate ha]
    simp
  rw [h0, h0]
  simp [List.countP_cons, hgdict]

theorem c2_witness :
    ((routeLoopAux false ([((0 : Nat), (1 : Nat))]).length
        [((0 : Int), (0 : Int)), ((0 : Int), (1 : Int))]
        [((0 : Nat), (1 : Nat))]).1.Perm [((0 : Nat), (1 : Nat))]) ∧
    (∀ g ∈ [((0 : Nat), (1 : Nat))],
      ((firedGateLists (routedGatesLists false
          [((0 : Int), (0 : Int)), ((0 : Int), (1 : Int))]
          [((0 : Nat), (1 : Nat))] 0)).countP
        (fun l => decide (g ∈ l))) = 1) :=
  c2_each_gate_fired_once false 0 [(0, 0), (0, 1)] [(0, 1)] [(0, 1)]
    (List.Perm.refl _) (by decide) (by decide)

/-- C4: the Vizing-bound assertion in `gate_scheduling` is vacuous -
`graph_coloring_rustworkx` returns status `0` unconditionally - so a
coloring exceeding `delta + 1` passes without the promised fatal failure:
with gates `[(0,1), (2,3)]` (maximum degree `delta = 1`) and an external
edge coloring using colors `0` and `2`, `gate_scheduling` returns three
layers (including an empty one), exceeding `delta + 1 = 2`, instead of
raising the AssertionError. -/
theorem c4_vizing_assert_vacuous :
    (∀ (n : Nat) (gs : List (Nat × Nat)) (ec : Nat → Nat),
      (graph_coloring_rustworkx n gs ec).1 = 0) ∧
    gate_scheduling 4 [(0, 1), (2, 3)] (fun i => if i = 0 then 0 else 2) =
      some [[0], [], [1]] ∧
    graphColoringDelta [(0, 1), (2, 3)] = 1 ∧
    ((gate_scheduling 4 [(0, 1), (2, 3)]
      (fun i => if i = 0 then 0 else 2)).getD []).length = 3 := by
  exact ⟨fun n gs ec => rfl, by rfl, by rfl, by rfl⟩

/-- C5: with `reverse_to_initial`, `route_qubit_mis` returns the mapping it
was given (the pre-loop copy is never reassigned), so the mapping entering
each interaction layer equals the mapping that entered the previous one;
folding the router over any sequence of layers leaves the mapping fixed. -/
theorem c5_reverse_to_initial_mapping_preserved :
    (∀ (useWindow hasNext : Bool)
      (replacer : List (Int × Int) → List (Nat × Nat) → List (Int × Int))
      (m : List (Int × Int)) (remain : List (Nat × Nat)),
      routeQubitMisMapping useWindow true hasNext replacer m remain = m) ∧
    (∀ (useWindow : Bool)
      (replacer : List (Int × Int) → List (Nat × Nat) → List (Int × Int))
      (layers : List (List (Nat × Nat))) (m : List (Int × Int)),
      layers.foldl
        (fun mm l => routeQubitMisMapping useWindow true true replacer mm l)
        m = m) := by
  have hstep : ∀ (useWindow hasNext : Bool) replacer m remain,
      routeQubitMisMapping useWindow true hasNext replacer m remain = m := by
    intro useWindow hasNext replacer m remain
    unfold routeQubitMisMapping
    simp
  refine ⟨hstep, ?_⟩
  intro useWindow replacer layers
  induction layers with
  | nil => intro m; rfl
  | cons l rest ih =>
    intro m
    simp only [List.foldl_cons]
    rw [hstep useWindow true replacer m l]
    exact ih m

/-- C6 counterexample: the virtual square side is computed with the floor
of the square root, not the ceiling: for `Nq = 2` on a 100 x 100 chip the
code uses a 5 x 5 working grid while the claim's
`ceil(sqrt(2)) + 4 = 6` rule would give 6 x 6. -/
theorem c6_ceil_sqrt_counterexample :
    saChipDim (100, 100) 2 = (5, 5) ∧
    specWorkingGrid (100, 100) 2 = (6, 6) ∧
    saChipDim (100, 100) 2 ≠ specWorkingGrid (100, 100) 2 := by
  refine ⟨by decide, by decide, by decide⟩

/-- C6 amended: with virtual square side
`L = floor(sqrt(Nq)) + 4`, the working grid is `(min(Nx,L), min(Ny,L))`
unless that grid has fewer cells than qubits, in which case the full chip
is used. -/
theorem c6_working_grid_amended :
    ∀ (Nx Ny n_qubit : Nat),
      (min Nx (isqrt n_qubit + 4) * min Ny (isqrt n_qubit + 4) <
          n_qubit →
        saChipDim (Nx, Ny) n_qubit = (Nx, Ny)) ∧
      (¬(min Nx (isqrt n_qubit + 4) * min Ny (isqrt n_qubit + 4) <
          n_qubit) →
        saChipDim (Nx, Ny) n_qubit =
          (min Nx (isqrt n_qubit + 4), min Ny (isqrt n_qubit + 4))) := by
  intro Nx Ny n_qubit
  constructor <;> intro h <;> unfold saChipDim <;> simp [h]

theorem c6_witness :
    saChipDim (100, 100) 2 =
      (min 100 (isqrt 2 + 4), min 100 (isqrt 2 + 4)) ∧
    saChipDim (2, 2) 100 = (2, 2) :=
  ⟨(c6_working_grid_amended 100 100 2).2 (by decide),
   (c6_working_grid_amended 2 2 100).1 (by decide)⟩

/-- C7: the partial placer moves only target qubits - every movement draws
its mover from the target set and its destination from the candidate-cell
list, which is exactly the initially-empty cells plus the sites of the
target qubits - so after any admissible movement sequence every qubit
outside the target set still sits at its input site. -/
theorem c7_partial_placer_frame :
    ∀ (chip_dim : Nat × Nat) (initial : List (Nat × Nat))
      (targets : List Nat) (moves : List (Nat × (Nat × Nat))),
      initial.Nodup →
      (∀ t ∈ targets, t < initial.length) →
      (∀ mv ∈ moves, mv.1 ∈ targets ∧
        mv.2 ∈ listPositionOf chip_dim initial targets) →
      (∀ q, q < initial.length → q ∉ targets →
        ((moves.foldl (fun st mv => makeMovement st mv.1 mv.2)
          ⟨initial, gridOf initial⟩ : PState).mapping.getD q (0, 0)) =
          initial.getD q (0, 0)) ∧
      (∀ p : Nat × Nat, p ∈ listPositionOf chip_dim initial targets ↔
        ((p.1 < chip_dim.1 ∧ p.2 < chip_dim.2 ∧ p ∉ initial) ∨
          ∃ t ∈ targets, p = initial.getD t (0, 0))) := by
  intro chip_dim initial targets moves hnd htb hmv
  have hinv := makeMovement_fold_inv htb moves _
    (partialInv_init chip_dim initial targets hnd htb) hmv
  exact ⟨fun q hq hqt => hinv.2.1 q hq hqt, fun p => mem_listPositionOf⟩

theorem c7_witness :
    (([((1 : Nat), ((0 : Nat), (1 : Nat)))].foldl
        (fun st mv => makeMovement st mv.1 mv.2)
        ⟨[(0, 0), (1, 1)], gridOf [(0, 0), (1, 1)]⟩ : PState).mapping.getD 0
      (0, 0)) = ([((0 : Nat), (0 : Nat)), (1, 1)].getD 0 (0, 0)) :=
  (c7_partial_placer_frame (2, 2) [(0, 0), (1, 1)] [1] [(1, (0, 1))]
    (by decide) (by decide) (by decide)).1 0 (by decide) (by decide)

/-- C8: each of Init, Move, Activate, Deactivate runs its (read-only)
verify entirely before its operate - when verify fails no state is
produced, so the Col/Row/Qubit records are the untouched inputs; when it
succeeds the result is exactly the operate step's state; and
argument-length disagreement (an Activate whose col_idx and col_xs differ
in length) always fails verify. -/
theorem c8_verify_before_operate :
    (∀ cols rows qs cidx cb ce ridx rb r_e,
      moveVerify cols rows cidx cb ce ridx rb r_e = false →
      moveExec cols rows qs cidx cb ce ridx rb r_e = none) ∧
    (∀ cols rows qs cidx cb ce ridx rb r_e,
      moveVerify cols rows cidx cb ce ridx rb r_e = true →
      moveExec cols rows qs cidx cb ce ridx rb r_e =
        some (moveOperate cols rows qs cidx cb ce ridx rb r_e)) ∧
    (∀ cols rows qs a b c d e f g,
      initVerify a b = false → initExec cols rows qs a b c d e f g = none) ∧
    (∀ cols rows qs a b c d e f g,
      initVerify a b = true →
      initExec cols rows qs a b c d e f g =
        some (initOperate cols rows qs a b c d e f g)) ∧
    (∀ cols rows qs ci cx ri ry pq,
      activateVerify cols rows qs ci cx ri ry pq = false →
      activateExec cols rows qs ci cx ri ry pq = none) ∧
    (∀ cols rows qs ci cx ri ry pq,
      activateVerify cols rows qs ci cx ri ry pq = true →
      activateExec cols rows qs ci cx ri ry pq =
        some (activateOperate cols rows qs ci cx ri ry pq)) ∧
    (∀ cols rows qs ci cx ri ry dq,
      deactivateVerify cols rows qs ci cx ri ry dq = false →
      deactivateExec cols rows qs ci cx ri ry dq = none) ∧
    (∀ cols rows qs ci cx ri ry dq,
      deactivateVerify cols rows qs ci cx ri ry dq = true →
      deactivateExec cols rows qs ci cx ri ry dq =
        some (deactivateOperate cols rows qs ci ri dq)) ∧
    (∀ cols rows qs ci cx ri ry pq, ci.length ≠ cx.length →
      activateExec cols rows qs ci cx ri ry pq = none) := by
  refine ⟨?_, ?_, ?_, ?_, ?_, ?_, ?_, ?_, ?_⟩
  · intro cols rows qs cidx cb ce ridx rb r_e h
    simp [moveExec, h]
  · intro cols rows qs cidx cb ce ridx rb r_e h
    simp [moveExec, h]
  · intro cols rows qs a b c d e f g h
    simp [initExec, h]
  · intro cols rows qs a b c d e f g h
    simp [initExec, h]
  · intro cols rows qs ci cx ri ry pq h
    simp [activateExec, h]
  · intro cols rows qs ci cx ri ry pq h
    simp [activateExec, h]
  · intro cols rows qs ci cx ri ry dq h
    simp [deactivateExec, h]
  · intro cols rows qs ci cx ri ry dq h
    simp [deactivateExec, h]
  · intro cols rows qs ci cx ri ry pq h
    have hv : activateVerify cols rows qs ci cx ri ry pq = false := by
      unfold activateVerify
      rw [show (decide (ci.length = cx.length)) = false from by simpa using h]
      simp
    simp [activateExec, hv]

theorem c8_witness :
    (moveExec [] [] [] [0] [0] [0] [] [] [] = none) ∧
    (moveExec [] [] [] [] [] [] [] [] [] =
      some (moveOperate [] [] [] [] [] [] [] [] [])) ∧
    (initExec [] [] [] [0] [] [] [] [] [] [] = none) ∧
    (initExec [] [] [] [] [] [] [] [] [] [] =
      some (initOperate [] [] [] [] [] [] [] [] [] [])) ∧
    (activateExec [] [] [] [0] [] [] [] [] = none) ∧
    (activateExec [] [] [] [] [] [] [] [] =
      some (activateOperate [] [] [] [] [] [] [] [])) ∧
    (deactivateExec [] [] [] [0] [] [] [] [] = none) ∧
    (deactivateExec [] [] [] [] [] [] [] [] =
      some (deactivateOperate [] [] [] [] [] [])) ∧
    (activateExec [] [] [] [0] [] [] [] [] = none) :=
  ⟨c8_verify_before_operate.1 [] [] [] [0] [0] [0] [] [] [] (by decide),
   c8_verify_before_operate.2.1 [] [] [] [] [] [] [] [] [] (by decide),
   c8_verify_before_operate.2.2.1 [] [] [] [0] [] [] [] [] [] [] (by decide),
   c8_verify_before_operate.2.2.2.1 [] [] [] [] [] [] [] [] [] [] (by decide),
   c8_verify_before_operate.2.2.2.2.1 [] [] [] [0] [] [] [] [] (by decide),
   c8_verify_before_operate.2.2.2.2.2.1 [] [] [] [] [] [] [] [] (by decide),
   c8_verify_before_operate.2.2.2.2.2.2.1 [] [] [] [0] [] [] [] [] (by decide),
   c8_verify_before_operate.2.2.2.2.2.2.2.1 [] [] [] [] [] [] [] [] (by decide),
   c8_verify_before_operate.2.2.2.2.2.2.2.2 [] [] [] [0] [] [] [] [] (by decide)⟩

/-- C1 counterexample: the claim fails as stated - an Activate of two
columns at the same coordinate passes verify (verify checks new columns
only against already-active ones, never against each other) yet leaves the
active column coordinates unordered. -/
theorem c1_counterexample :
    activateVerify [⟨false, 0⟩, ⟨false, 0⟩] [] [] [0, 1] [0, 0] [] [] [] =
      true ∧
    ¬aodOrdered
      (activateOperate [⟨false, 0⟩, ⟨false, 0⟩] [] [] [0, 1] [0, 0] [] [] []).1 := by
  refine ⟨by decide, ?_⟩
  unfold aodOrdered
  decide

/-- C1 amended: every Move or Deactivate whose verify succeeds yields a
state whose active column coordinates are strictly increasing in column id
with gaps of at least AOD_SEP (likewise rows); an Activate whose verify
succeeds does so as well provided the newly activated columns are orderly
among themselves (pairwise distinct ids, the smaller id at least AOD_SEP
below the larger), and likewise its rows. -/
theorem c1_lattice_order_preserved :
    (∀ (cols rows : List Line) (qs : List QubitR) (cidx : List Nat)
      (cb ce : List Int) (ridx : List Nat) (rb r_e : List Int),
      aodOrdered cols → aodOrdered rows →
      moveVerify cols rows cidx cb ce ridx rb r_e = true →
      aodOrdered (moveOperate cols rows qs cidx cb ce ridx rb r_e).1 ∧
      aodOrdered (moveOperate cols rows qs cidx cb ce ridx rb r_e).2.1) ∧
    (∀ (cols rows : List Line) (qs : List QubitR) (ci : List Nat)
      (cx : List Int) (ri : List Nat) (ry : List Int) (dq : List Nat),
      aodOrdered cols → aodOrdered rows →
      deactivateVerify cols rows qs ci cx ri ry dq = true →
      aodOrdered (deactivateOperate cols rows qs ci ri dq).1 ∧
      aodOrdered (deactivateOperate cols rows qs ci ri dq).2.1) ∧
    (∀ (cols rows : List Line) (qs : List QubitR) (ci : List Nat)
      (cx : List Int) (ri : List Nat) (ry : List Int) (pq : List Nat),
      aodOrdered cols → aodOrdered rows →
      (ci.zip cx).Pairwise newOK →
      (ri.zip ry).Pairwise newOK →
      activateVerify cols rows qs ci cx ri ry pq = true →
      aodOrdered (activateOperate cols rows qs ci cx ri ry pq).1 ∧
      aodOrdered (activateOperate cols rows qs ci cx ri ry pq).2.1) := by
  refine ⟨?_, ?_, ?_⟩
  · intro cols rows qs cidx cb ce ridx rb r_e _ _ hv
    unfold moveVerify at hv
    simp only [Bool.and_eq_true] at hv
    exact ⟨moveVerifyAxis_preserves cols cidx cb ce hv.1,
      moveVerifyAxis_preserves rows ridx rb r_e hv.2⟩
  · intro cols rows qs ci cx ri ry dq hc hr _
    exact ⟨deactFold_preserves ci cols hc, deactFold_preserves ri rows hr⟩
  · intro cols rows qs ci cx ri ry pq hc hr hnc hnr hv
    unfold activateVerify at hv
    simp only [Bool.and_eq_true] at hv
    exact ⟨activateAxis_preserves cols (ci.zip cx) hc hnc hv.1.1.2,
      activateAxis_preserves rows (ri.zip ry) hr hnr hv.1.2⟩

theorem c1_witness :
    (aodOrdered (moveOperate [⟨true, 0⟩, ⟨true, 2⟩] [] [] [0] [0] [-2] [] []
        []).1 ∧
      aodOrdered (moveOperate [⟨true, 0⟩, ⟨true, 2⟩] [] [] [0] [0] [-2] [] []
        []).2.1) ∧
    (aodOrdered (deactivateOperate [⟨true, 0⟩] [] [] [0] [] []).1 ∧
      aodOrdered (deactivateOperate [⟨true, 0⟩] [] [] [0] [] []).2.1) ∧
    (aodOrdered (activateOperate [⟨false, 0⟩] [] [] [0] [5] [] [] []).1 ∧
      aodOrdered (activateOperate [⟨false, 0⟩] [] [] [0] [5] [] [] []).2.1) :=
  ⟨c1_lattice_order_preserved.1 [⟨true, 0⟩, ⟨true, 2⟩] [] [] [0] [0] [-2] []
      [] [] (by decide) (by decide) (by decide),
   c1_lattice_order_preserved.2.1 [⟨true, 0⟩] [] [] [0] [0] [] [] []
      (by decide) (by decide) (by decide),
   c1_lattice_order_preserved.2.2 [⟨false, 0⟩] [] [] [0] [5] [] [] []
      (by decide) (by decide) (by decide) (by decide) (by decide)⟩

end Enola
